import Mathlib

/-!
Verification of the `HashyStepTable` open-addressing hash table
(`src/hashy_step_table.py`): a double-hashing table with lazy (tombstone)
deletion and growth through a fixed list of capacities.

Embedding conventions:
* Keys are strings (the source hashes keys character by character); values
  are an arbitrary type `V`.
* A slot of the backing `ArrayR` holds `None`, the deleted-marker string
  `"<DELETED>"`, or a `(key, value)` tuple; this is the three-constructor
  type `Slot`.
* `count` is an `Int`, since the source can drive it below zero.
* Python exceptions are modelled by threading the state: each mutating
  operation returns the table state at the moment the operation finished
  (or raised), together with an optional error.  This retains any partial
  mutation performed before a raise, exactly as in Python.
* The load-factor test `len(self) > self.table_size * 2 / 3` is modelled
  as `3 * count > 2 * table_size` over `Int`.  For every table size `m`
  that can occur here (at most 1572869) the float `m * 2 / 3` is far more
  precise than the gap 1/3 between an integer and the nearest exact value
  of `2m/3`, so the two tests agree.
* `_rehash` calls `self[key] = value` recursively; the recursion is
  bounded in the source because each level advances `size_index` and the
  size list is finite.  The embedding uses a fuel parameter; public
  wrappers pass `sizes.length + 2` fuel, which is never exhausted, and
  exhaustion is a distinguished error `Err.fuelOut`.
-/

set_option maxHeartbeats 1000000

namespace HashyStep

/-- One slot of the backing array: Python `None`, the deleted-marker string
`"<DELETED>"`, or an occupied `(key, value)` tuple. -/
inductive Slot (V : Type) where
  | empty : Slot V
  | del : Slot V
  | occ (key : String) (val : V) : Slot V
deriving DecidableEq, Repr

/-- Errors raised by the source: `keyError` is Python `KeyError`, `full` is
`FullError` (raised both after an exhausted probe walk and when no larger
table size remains).  `fuelOut` is an artifact of the bounded-recursion
embedding of `_rehash`; the public wrappers supply enough fuel that it is
never produced. -/
inductive Err where
  | keyError : Err
  | full : Err
  | fuelOut : Err
deriving DecidableEq, Repr

/-- The table state: the (possibly overridden) size list `TABLE_SIZES`, the
current `size_index`, the backing array and the live `count`. -/
structure Table (V : Type) where
  sizes : List Nat
  sizeIndex : Nat
  array : List (Slot V)
  count : Int
deriving Repr

/-- `HashyStepTable.TABLE_SIZES`. -/
def TABLE_SIZES : List Nat :=
  [5, 13, 29, 53, 97, 193, 389, 769, 1543, 3079, 6151, 12289, 24593,
   49157, 98317, 196613, 393241, 786433, 1572869]

/-- `__init__(sizes)`: `size_index = 0`, a fresh array of
`TABLE_SIZES[0]` empty slots, `count = 0`. -/
def initTable (V : Type) (sizes : List Nat) : Table V :=
  { sizes := sizes, sizeIndex := 0,
    array := List.replicate (sizes.getD 0 0) Slot.empty, count := 0 }

/-- `__init__()` with the default size list. -/
def defaultTable (V : Type) : Table V :=
  initTable V TABLE_SIZES

/-- `table_size`: the length of the backing array. -/
def Table.tableSize {V : Type} (t : Table V) : Nat :=
  t.array.length

/-- `hash(key)`: polynomial accumulation modulo `table_size`, with the
multiplier `a` (initially 31415) updated by `a = a * 31 % (table_size - 1)`
after each character. -/
def hashKey (m : Nat) (key : String) : Nat :=
  (key.data.foldl
    (fun p c => ((c.toNat + p.2 * p.1) % m, p.2 * 31 % (m - 1)))
    ((0 : Nat), (31415 : Nat))).1

/-- `hash2(key)`: polynomial accumulation modulo `table_size - 1`, plus
one (step size is never zero). -/
def hash2Key (m : Nat) (key : String) : Nat :=
  key.data.foldl (fun v c => (v * 31 + c.toNat) % (m - 1)) 0 + 1

/-- The body of the probe loop in `_hashy_probe`: at most `fuel` (initially
`table_size`) iterations; `None` resolves (insert) or raises `KeyError`
(lookup); the deleted marker resolves for insert and is stepped over for
lookup; a matching key resolves; otherwise step to
`(position + step) % table_size`.  Falling off the loop raises `FullError`
in both modes. -/
def probeLoop {V : Type} (arr : List (Slot V)) (key : String)
    (isInsert : Bool) (step : Nat) : Nat → Nat → Except Err Nat
  | 0, _ => .error .full
  | fuel + 1, pos =>
    match arr.getD pos Slot.empty with
    | .empty => if isInsert then .ok pos else .error .keyError
    | .del =>
        if isInsert then .ok pos
        else probeLoop arr key isInsert step fuel ((pos + step) % arr.length)
    | .occ k _ =>
        if k = key then .ok pos
        else probeLoop arr key isInsert step fuel ((pos + step) % arr.length)

/-- `_hashy_probe(key, is_insert)`. -/
def hashyProbe {V : Type} (t : Table V) (key : String) (isInsert : Bool) :
    Except Err Nat :=
  probeLoop t.array key isInsert (hash2Key t.array.length key)
    t.array.length (hashKey t.array.length key)

/-- `__getitem__(key)`: probe in lookup mode and return the stored value.
A lookup probe only resolves at a slot holding the probed key, so the
catch-all line is unreachable. -/
def getItem {V : Type} (t : Table V) (key : String) : Except Err V :=
  match hashyProbe t key false with
  | .error e => .error e
  | .ok pos =>
    match t.array.getD pos Slot.empty with
    | .occ _ v => .ok v
    | _ => .error .keyError

/-- One iteration of the re-insertion loop of `_rehash`: skip `None` and
the deleted marker, re-insert occupied pairs through the insertion path
`ins`; a raise aborts the remaining iterations and is propagated. -/
def reinsertStep {V : Type}
    (ins : Table V → String → V → Table V × Option Err) :
    Table V × Option Err → Slot V → Table V × Option Err
  | (t, none), Slot.occ k v => ins t k v
  | acc, _ => acc

/-- `_rehash()`, with the insertion path `self[key] = value` abstracted as
`ins`: advance `size_index`, raise `FullError` if the size list is
exhausted (the advanced index is retained), otherwise allocate a fresh
array of the next size, reset `count` to zero and re-insert every occupied
pair of the old array. -/
def rehashWith {V : Type}
    (ins : Table V → String → V → Table V × Option Err) (t : Table V) :
    Table V × Option Err :=
  let old := t.array
  let t1 : Table V := { t with sizeIndex := t.sizeIndex + 1 }
  if t1.sizes.length ≤ t1.sizeIndex then (t1, some .full)
  else
    let t2 : Table V :=
      { t1 with array := List.replicate (t1.sizes.getD t1.sizeIndex 0) Slot.empty,
                count := 0 }
    old.foldl (reinsertStep ins) (t2, none)

/-- `__setitem__(key, data)` with fuel for the `_rehash` recursion: probe
in insert mode, increment `count` only when the resolved slot held `None`,
write the `(key, data)` pair, then rehash if `count` exceeds two thirds of
the table size. -/
def setItemF {V : Type} : Nat → Table V → String → V → Table V × Option Err
  | 0, t, _, _ => (t, some .fuelOut)
  | fuel + 1, t, key, data =>
    match hashyProbe t key true with
    | .error e => (t, some e)
    | .ok pos =>
      let bump : Int :=
        match t.array.getD pos Slot.empty with
        | .empty => 1
        | _ => 0
      let t1 : Table V :=
        { t with array := t.array.set pos (Slot.occ key data),
                 count := t.count + bump }
      if 3 * t1.count > 2 * (t1.array.length : Int) then
        rehashWith (setItemF fuel) t1
      else
        (t1, none)

/-- `_rehash()` itself, with the stated fuel for nested rehashes. -/
def rehashF {V : Type} (fuel : Nat) (t : Table V) : Table V × Option Err :=
  rehashWith (setItemF fuel) t

/-- Fuel that the public `set` wrapper passes: each nested `_rehash` level
advances `size_index`, so the recursion depth is bounded by the length of
the size list. -/
def stdFuel {V : Type} (t : Table V) : Nat :=
  t.sizes.length + 2

/-- `__setitem__(key, data)`. -/
def setItem {V : Type} (t : Table V) (key : String) (data : V) :
    Table V × Option Err :=
  setItemF (stdFuel t) t key data

/-- `__delitem__(key)`: lookup-mode probe, then lazy deletion (write the
deleted marker) and decrement `count`. -/
def deleteItem {V : Type} (t : Table V) (key : String) :
    Table V × Option Err :=
  match hashyProbe t key false with
  | .error e => (t, some e)
  | .ok pos =>
    ({ t with array := t.array.set pos Slot.del, count := t.count - 1 }, none)

/-- `__contains__(key)`: `self[key]`, catching only `KeyError`; any other
raise propagates. -/
def containsKey {V : Type} (t : Table V) (key : String) : Except Err Bool :=
  match getItem t key with
  | .ok _ => .ok true
  | .error .keyError => .ok false
  | .error e => .error e

/-- `keys()`: every slot that `is not None` contributes `slot[0]` — the key
of an occupied tuple, but also `"<DELETED>"[0] = "<"` for a deleted
marker. -/
def keysList {V : Type} (t : Table V) : List String :=
  t.array.filterMap fun s =>
    match s with
    | .empty => none
    | .del => some "<"
    | .occ k _ => some k

/-- `values()`: every slot that `is not None` contributes `slot[1]` — the
value of an occupied tuple (`Sum.inl`), but also `"<DELETED>"[1] = "D"`
for a deleted marker (`Sum.inr`, since Python would mix a string into the
list of values). -/
def valuesList {V : Type} (t : Table V) : List (V ⊕ String) :=
  t.array.filterMap fun s =>
    match s with
    | .empty => none
    | .del => some (Sum.inr "D")
    | .occ _ v => some (Sum.inl v)

/-- `__len__`: returns `count` as stored. -/
def lenT {V : Type} (t : Table V) : Int :=
  t.count

/-- `is_empty()`. -/
def isEmptyT {V : Type} (t : Table V) : Bool :=
  t.count == 0

/-- `is_full()`. -/
def isFullT {V : Type} (t : Table V) : Bool :=
  t.count == (t.array.length : Int)

/-- Specification-side `keys()` (from the spec's words): the keys of the
Occupied slots in position order, skipping both Empty and Tombstone. -/
def keysSpec {V : Type} (t : Table V) : List String :=
  t.array.filterMap fun s =>
    match s with
    | .occ k _ => some k
    | _ => none

/-- Specification-side `values()` (from the spec's words): the values of
the Occupied slots in position order, skipping both Empty and Tombstone. -/
def valuesSpec {V : Type} (t : Table V) : List V :=
  t.array.filterMap fun s =>
    match s with
    | .occ _ v => some v
    | _ => none

/-- The number of occupied slots of an array. -/
def countOccupied {V : Type} (arr : List (Slot V)) : Nat :=
  arr.countP fun s =>
    match s with
    | .occ _ _ => true
    | _ => false

/-! ## Derived notions used by the verification -/

/-- The slot a position holds (out-of-range reads as Empty; probe positions
are always reduced modulo the array length, so they are in range whenever
the array is non-empty). -/
def slotAt {V : Type} (arr : List (Slot V)) (p : Nat) : Slot V :=
  arr.getD p Slot.empty

/-- The position visited by iteration `i` of a probe walk over a table of
size `m` starting at `h` with step `s`. -/
def iterPos (m h s i : Nat) : Nat :=
  (h + i * s) % m

/-- The position iteration `i` of `key`'s probe walk over `arr` looks at. -/
def probePos {V : Type} (arr : List (Slot V)) (key : String) (i : Nat) : Nat :=
  iterPos arr.length (hashKey arr.length key) (hash2Key arr.length key) i

/-- Whether one iteration of the probe loop steps over this slot (moves on
to the next position) in the given mode. -/
def stepsOver {V : Type} (isInsert : Bool) (key : String) : Slot V → Bool
  | .empty => false
  | .del => !isInsert
  | .occ k _ => !(k == key)

/-- The number of slots that are not `None`. -/
def countNonEmpty {V : Type} (arr : List (Slot V)) : Nat :=
  arr.countP fun s =>
    match s with
    | .empty => false
    | _ => true

/-- The values stored under `key`, in position order. -/
def occsOf {V : Type} (key : String) (arr : List (Slot V)) : List V :=
  arr.filterMap fun s =>
    match s with
    | .occ k v => if k = key then some v else none
    | _ => none

/-- `key`'s probe walk over `arr` finds the value `v`: some iteration `i`
looks at a slot holding `(key, v)` while every earlier iteration looks at
a slot occupied by a different key (which both probe modes step over). -/
def FindsVal {V : Type} (arr : List (Slot V)) (key : String) (v : V) : Prop :=
  ∃ i, i < arr.length ∧
    slotAt arr (probePos arr key i) = Slot.occ key v ∧
    ∀ j, j < i → stepsOver true key (slotAt arr (probePos arr key j)) = true

/-- No iteration of a key's probe walk sees an Empty slot while a strictly
later iteration of the same walk holds that key.  This is the stable
well-formedness fact behind "probing meets a stored key before any Empty
slot": slots never change back from occupied/tombstone to Empty except
through a resize, which rebuilds the array by fresh insertions. -/
def NoEmptyBeforeKey {V : Type} (arr : List (Slot V)) : Prop :=
  ∀ (k : String) (a b : Nat), a < b → b < arr.length →
    slotAt arr (probePos arr k a) = Slot.empty →
    ∀ w, slotAt arr (probePos arr k b) ≠ Slot.occ k w

/-- Invariant carried through the re-insertion loop of a resize: the state
`T` keeps the bookkeeping fields `sz`/`si`, has the fresh capacity `m2`,
holds no tombstones, has at most `done` non-empty slots (at most one per
processed item) with `count` bounded by them, satisfies the probe-walk
well-formedness, and either still awaits the distinguished `(key, v)` pair
(`pending = true`, no slot holds `key`) or already finds it. -/
structure ReInv {V : Type} (key : String) (v : V) (sz : List Nat) (si : Nat)
    (m2 done : Nat) (T : Table V) (pending : Bool) : Prop where
  sizes_eq : T.sizes = sz
  sizeIndex_eq : T.sizeIndex = si
  len_eq : T.array.length = m2
  noTomb : ∀ p, slotAt T.array p ≠ Slot.del
  nonEmpty_le : countNonEmpty T.array ≤ done
  count_le : T.count ≤ (countNonEmpty T.array : Int)
  count_nonneg : 0 ≤ T.count
  nebo : NoEmptyBeforeKey T.array
  keyState : if pending then ∀ p w, slotAt T.array p ≠ Slot.occ key w
             else FindsVal T.array key v

/-- State well-formedness maintained by every operation on tables built
over the default prime size list: the probe-walk fact `NoEmptyBeforeKey`,
a capacity drawn from `TABLE_SIZES`, and — unless a failed resize has
already run past the end of the size list — the size bookkeeping link and
the two-thirds load-factor bound. -/
def Inv {V : Type} (t : Table V) : Prop :=
  t.sizes = TABLE_SIZES ∧
  t.array.length ∈ TABLE_SIZES ∧
  NoEmptyBeforeKey t.array ∧
  ((t.sizes.get? t.sizeIndex = some t.array.length ∧
      3 * t.count ≤ 2 * (t.array.length : Int)) ∨
    t.sizes.length ≤ t.sizeIndex)

/-- Tables reachable from a freshly constructed default-size table through
the mutating operations (whether they succeed or raise). -/
inductive Reachable {V : Type} : Table V → Prop where
  | init : Reachable (defaultTable V)
  | set (t : Table V) (key : String) (v : V) :
      Reachable t → Reachable (setItem t key v).1
  | del (t : Table V) (key : String) :
      Reachable t → Reachable (deleteItem t key).1

end HashyStep

namespace HashyStep

/-! ## Concrete evaluations of the code -/

/-- C1: the claim states that a `set` resolving to an Empty **or Tombstone**
slot increments `count`.  The code increments only when the slot `is None`:
on a fresh table, after `set "x" 1; delete "x"; set "x" 2` the second set
resolves to the tombstone left by the delete and completes without raising,
yet `count` is still 0 while the array holds exactly one occupied slot, so
the invariant `count = number of Occupied slots` is broken. -/
theorem C1_code_eval :
    (deleteItem (setItem (defaultTable Int) "x" 1).1 "x").1.count = 0 ∧
    (setItem (deleteItem (setItem (defaultTable Int) "x" 1).1 "x").1 "x" 2).2
      = none ∧
    (setItem (deleteItem (setItem (defaultTable Int) "x" 1).1 "x").1 "x" 2).1.count
      = 0 ∧
    countOccupied
      (setItem (deleteItem (setItem (defaultTable Int) "x" 1).1 "x").1 "x" 2).1.array
      = 1 :=
  ⟨rfl, rfl, rfl, rfl⟩

/-- C2: the claim states `keys()`/`values()` skip both Empty and Tombstone
and never show a tombstone artifact.  The code skips only `None`: after
`set "x" 10; delete "x"` on a fresh table the lone tombstone contributes
`"<DELETED>"[0] = "<"` to `keys()` and `"<DELETED>"[1] = "D"` to
`values()`, while the spec-side scans of the Occupied slots are empty. -/
theorem C2_code_eval :
    keysList (deleteItem (setItem (defaultTable Int) "x" 10).1 "x").1 = ["<"] ∧
    valuesList (deleteItem (setItem (defaultTable Int) "x" 10).1 "x").1
      = [Sum.inr "D"] ∧
    keysSpec (deleteItem (setItem (defaultTable Int) "x" 10).1 "x").1 = [] ∧
    valuesSpec (deleteItem (setItem (defaultTable Int) "x" 10).1 "x").1 = [] :=
  ⟨rfl, rfl, rfl, rfl⟩

/-- C3: the claim states that a lookup whose probe walk exhausts `capacity`
positions fails with NotFound and never with Full.  The code raises
`FullError` after the loop in both modes: on a fresh (capacity 5) table,
`set "d"; set "e"; set "a"; delete "d"; delete "e"; set "b"; set "c"`
leaves every slot non-`None` (three occupied, two tombstones), and then
`get "f"`, `"f" in table` and `del "f"` all raise `FullError`, not
`KeyError`. -/
theorem C3_code_eval :
    getItem
      (setItem (setItem (deleteItem (deleteItem (setItem (setItem
        (setItem (defaultTable Int) "d" 1).1 "e" 2).1 "a" 3).1 "d").1 "e").1
        "b" 4).1 "c" 5).1 "f" = .error .full ∧
    containsKey
      (setItem (setItem (deleteItem (deleteItem (setItem (setItem
        (setItem (defaultTable Int) "d" 1).1 "e" 2).1 "a" 3).1 "d").1 "e").1
        "b" 4).1 "c" 5).1 "f" = .error .full ∧
    (deleteItem
      (setItem (setItem (deleteItem (deleteItem (setItem (setItem
        (setItem (defaultTable Int) "d" 1).1 "e" 2).1 "a" 3).1 "d").1 "e").1
        "b" 4).1 "c" 5).1 "f").2 = some .full :=
  ⟨rfl, rfl, rfl⟩

/-- C4 counterexample: the claim states a failed `set` retains no partial
mutation (no half-written entry, no advanced size index).  With
`sizes = [5]`, the fourth insert crosses the load factor, the resize finds
no larger capacity and the `set` raises `FullError` — but afterwards the
new entry is retrievable, `count` went from 3 to 4 and `size_index` from
0 to 1. -/
theorem C4_counterexample :
    (setItem (setItem (setItem (initTable Int [5]) "a" 1).1 "b" 2).1 "c" 3).1.count
      = 3 ∧
    (setItem (setItem (setItem (initTable Int [5]) "a" 1).1 "b" 2).1 "c" 3).1.sizeIndex
      = 0 ∧
    (setItem (setItem (setItem (setItem (initTable Int [5]) "a" 1).1 "b" 2).1
      "c" 3).1 "d" 4).2 = some .full ∧
    (setItem (setItem (setItem (setItem (initTable Int [5]) "a" 1).1 "b" 2).1
      "c" 3).1 "d" 4).1.count = 4 ∧
    (setItem (setItem (setItem (setItem (initTable Int [5]) "a" 1).1 "b" 2).1
      "c" 3).1 "d" 4).1.sizeIndex = 1 ∧
    getItem (setItem (setItem (setItem (setItem (initTable Int [5]) "a" 1).1
      "b" 2).1 "c" 3).1 "d" 4).1 "d" = .ok 4 :=
  ⟨rfl, rfl, rfl, rfl, rfl, rfl⟩

/-- C7 counterexample: the claim states an empty key fails fast with an
error.  The code hashes `""` like any key (the loops over its characters
run zero times): on a fresh table `set "" 7` completes without raising,
`get ""` returns 7 and `contains ""` is true. -/
theorem C7_counterexample :
    (setItem (defaultTable Int) "" 7).2 = none ∧
    getItem (setItem (defaultTable Int) "" 7).1 "" = .ok 7 ∧
    containsKey (setItem (defaultTable Int) "" 7).1 "" = .ok true :=
  ⟨rfl, rfl, rfl⟩

/-- C9: with `sizes = [5, 13]`, inserting `"a" ↦ 1`, `"b" ↦ 2`, `"c" ↦ 3`,
`"d" ↦ 4` makes the fourth insert raise `count` to `4 > 5 * 2/3` and
resize to capacity 13; afterwards all four keys are retrievable with their
original values and `len() = 4`. -/
theorem C9_concrete_scenario :
    (setItem (setItem (setItem (setItem (initTable Int [5, 13]) "a" 1).1
      "b" 2).1 "c" 3).1 "d" 4).2 = none ∧
    (setItem (setItem (setItem (setItem (initTable Int [5, 13]) "a" 1).1
      "b" 2).1 "c" 3).1 "d" 4).1.array.length = 13 ∧
    getItem (setItem (setItem (setItem (setItem (initTable Int [5, 13]) "a" 1).1
      "b" 2).1 "c" 3).1 "d" 4).1 "a" = .ok 1 ∧
    getItem (setItem (setItem (setItem (setItem (initTable Int [5, 13]) "a" 1).1
      "b" 2).1 "c" 3).1 "d" 4).1 "b" = .ok 2 ∧
    getItem (setItem (setItem (setItem (setItem (initTable Int [5, 13]) "a" 1).1
      "b" 2).1 "c" 3).1 "d" 4).1 "c" = .ok 3 ∧
    getItem (setItem (setItem (setItem (setItem (initTable Int [5, 13]) "a" 1).1
      "b" 2).1 "c" 3).1 "d" 4).1 "d" = .ok 4 ∧
    lenT (setItem (setItem (setItem (setItem (initTable Int [5, 13]) "a" 1).1
      "b" 2).1 "c" 3).1 "d" 4).1 = 4 :=
  ⟨rfl, rfl, rfl, rfl, rfl, rfl, rfl⟩

end HashyStep

namespace HashyStep

/-! ## Basic facts about slots, probe positions and the hash functions -/

theorem slotAt_of_le {V : Type} (arr : List (Slot V)) (p : Nat)
    (h : arr.length ≤ p) : slotAt arr p = Slot.empty := by
  simp [slotAt, List.getD_eq_getD_get?, List.get?_eq_getElem?,
    List.getElem?_eq_none h]

theorem slotAt_set_self {V : Type} (arr : List (Slot V)) (p : Nat)
    (x : Slot V) (h : p < arr.length) : slotAt (arr.set p x) p = x := by
  simp [slotAt, List.getD_eq_getD_get?, List.get?_eq_getElem?,
    List.getElem?_set_eq_of_lt, h]

theorem slotAt_set_ne {V : Type} (arr : List (Slot V)) (p q : Nat)
    (x : Slot V) (h : q ≠ p) : slotAt (arr.set p x) q = slotAt arr q := by
  simp [slotAt, List.getD_eq_getD_get?, List.get?_eq_getElem?,
    List.getElem?_set_ne (fun hh => h hh.symm)]

theorem slotAt_replicate {V : Type} (n p : Nat) (h : p < n) :
    slotAt (List.replicate n (Slot.empty : Slot V)) p = Slot.empty := by
  simp [slotAt, List.getD_eq_getD_get?, List.get?_eq_getElem?,
    List.getElem?_replicate, h]

theorem slotAt_replicate_all {V : Type} (n p : Nat) :
    slotAt (List.replicate n (Slot.empty : Slot V)) p = Slot.empty := by
  rcases Nat.lt_or_ge p n with h | h
  · exact slotAt_replicate n p h
  · exact slotAt_of_le _ _ (by simpa using h)

theorem iterPos_lt (m h s i : Nat) (hm : 0 < m) : iterPos m h s i < m :=
  Nat.mod_lt _ hm

theorem iterPos_zero (m h s : Nat) (hh : h < m) : iterPos m h s 0 = h := by
  simp [iterPos, Nat.mod_eq_of_lt hh]

theorem iterPos_succ (m h s i : Nat) :
    iterPos m h s (i + 1) = (iterPos m h s i + s) % m := by
  simp only [iterPos, Nat.mod_add_mod]
  ring_nf

theorem hashKey_lt (m : Nat) (key : String) (hm : 0 < m) :
    hashKey m key < m := by
  unfold hashKey
  have main : ∀ (l : List Char) (p : Nat × Nat), p.1 < m →
      (l.foldl (fun p c => ((c.toNat + p.2 * p.1) % m, p.2 * 31 % (m - 1))) p).1 < m := by
    intro l
    induction l with
    | nil => intro p hp; exact hp
    | cons c cs ih =>
        intro p _
        exact ih _ (Nat.mod_lt _ hm)
  exact main key.data (0, 31415) hm

theorem hash2Key_pos (m : Nat) (key : String) : 1 ≤ hash2Key m key := by
  unfold hash2Key
  omega

theorem hash2Key_le (m : Nat) (key : String) (hm : 2 ≤ m) :
    hash2Key m key ≤ m - 1 := by
  unfold hash2Key
  have hm1 : 0 < m - 1 := by omega
  have main : ∀ (l : List Char) (v : Nat), v < m - 1 →
      l.foldl (fun v c => (v * 31 + c.toNat) % (m - 1)) v < m - 1 := by
    intro l
    induction l with
    | nil => intro v hv; exact hv
    | cons c cs ih => intro v _; exact ih _ (Nat.mod_lt _ hm1)
  have := main key.data 0 hm1
  omega

theorem iterPos_inj (m h s i j : Nat) (hm : Nat.Prime m) (hs1 : 1 ≤ s)
    (hs2 : s < m) (hi : i < m) (hj : j < m)
    (heq : iterPos m h s i = iterPos m h s j) : i = j := by
  by_contra hne
  wlog hij : i < j generalizing i j
  · exact this j i hj hi heq.symm (Ne.symm hne) (by omega)
  have hmod : (h + i * s) % m = (h + j * s) % m := heq
  have hdvd : m ∣ (j - i) * s := by
    have h1 : (h + i * s) % m = (h + j * s) % m := hmod
    have h2 : (j - i) * s = (h + j * s) - (h + i * s) := by
      have : i * s ≤ j * s := Nat.mul_le_mul_right s (Nat.le_of_lt hij)
      have : (j - i) * s = j * s - i * s := by
        rw [Nat.sub_mul]
      omega
    rw [h2]
    exact (Nat.modEq_iff_dvd' (by nlinarith)).mp h1
  have hcop : Nat.Coprime m s := by
    refine (Nat.Prime.coprime_iff_not_dvd hm).mpr ?hnd
    intro hds
    have := Nat.le_of_dvd (by omega) hds
    omega
  have hdvd2 : m ∣ (j - i) := (Nat.Coprime.dvd_of_dvd_mul_right hcop) hdvd
  have : j - i < m := by omega
  have : 0 < j - i := by omega
  have := Nat.le_of_dvd this hdvd2
  omega

theorem iterPos_surj (m h s : Nat) (hm : Nat.Prime m) (hs1 : 1 ≤ s)
    (hs2 : s < m) (q : Nat) (hq : q < m) :
    ∃ i, i < m ∧ iterPos m h s i = q := by
  have hm0 : 0 < m := hm.pos
  let f : Fin m → Fin m := fun i => ⟨iterPos m h s i.1, iterPos_lt m h s i.1 hm0⟩
  have hinj : Function.Injective f := by
    intro a b hab
    have : iterPos m h s a.1 = iterPos m h s b.1 := congrArg Fin.val hab
    exact Fin.ext (iterPos_inj m h s a.1 b.1 hm hs1 hs2 a.2 b.2 this)
  have hsurj : Function.Surjective f :=
    Finite.surjective_of_injective hinj
  obtain ⟨i, hi⟩ := hsurj ⟨q, hq⟩
  exact ⟨i.1, i.2, congrArg Fin.val hi⟩

end HashyStep

namespace HashyStep

/-! ## Probe loop lemmas -/

theorem probeLoop_succ {V : Type} (arr : List (Slot V)) (key : String)
    (ins : Bool) (s n pos : Nat) :
    probeLoop arr key ins s (n + 1) pos =
      match slotAt arr pos with
      | .empty => if ins then .ok pos else .error .keyError
      | .del => if ins then .ok pos
                else probeLoop arr key ins s n ((pos + s) % arr.length)
      | .occ k _ => if k = key then .ok pos
                else probeLoop arr key ins s n ((pos + s) % arr.length) := rfl

theorem probeLoop_step {V : Type} (arr : List (Slot V)) (key : String)
    (ins : Bool) (s n pos : Nat)
    (h : stepsOver ins key (slotAt arr pos) = true) :
    probeLoop arr key ins s (n + 1) pos
      = probeLoop arr key ins s n ((pos + s) % arr.length) := by
  cases hslot : slotAt arr pos with
  | empty => rw [hslot] at h; simp [stepsOver] at h
  | del =>
      rw [hslot] at h
      have hins : ins = false := by simpa [stepsOver] using h
      subst hins
      rw [probeLoop_succ, hslot]
      rfl
  | occ k w =>
      rw [hslot] at h
      have hk : ¬(k = key) := by simpa [stepsOver] using h
      rw [probeLoop_succ, hslot]
      simp [hk]

theorem probeLoop_resolve_ok {V : Type} (arr : List (Slot V)) (key : String)
    (ins : Bool) (s n pos : Nat)
    (h : stepsOver ins key (slotAt arr pos) = false)
    (hne : slotAt arr pos = Slot.empty → ins = true) :
    probeLoop arr key ins s (n + 1) pos = .ok pos := by
  cases hslot : slotAt arr pos with
  | empty =>
      have hins : ins = true := hne hslot
      subst hins
      rw [probeLoop_succ, hslot]
      rfl
  | del =>
      rw [hslot] at h
      have hins : ins = true := by simpa [stepsOver] using h
      subst hins
      rw [probeLoop_succ, hslot]
      rfl
  | occ k w =>
      rw [hslot] at h
      have hk : k = key := by simpa [stepsOver] using h
      rw [probeLoop_succ, hslot]
      simp [hk]

theorem probeLoop_resolve_err {V : Type} (arr : List (Slot V)) (key : String)
    (s n pos : Nat) (hslot : slotAt arr pos = Slot.empty) :
    probeLoop arr key false s (n + 1) pos = .error .keyError := by
  rw [probeLoop_succ, hslot]
  rfl

theorem probeLoop_walk {V : Type} (arr : List (Slot V)) (key : String)
    (ins : Bool) (s h : Nat) (i : Nat) :
    ∀ n, (∀ j, j < i → stepsOver ins key (slotAt arr (iterPos arr.length h s j)) = true) →
      probeLoop arr key ins s (i + n) (iterPos arr.length h s 0)
        = probeLoop arr key ins s n (iterPos arr.length h s i) := by
  induction i with
  | zero => intro n _; rw [Nat.zero_add]
  | succ i ih =>
      intro n hcont
      have harith : i + 1 + n = i + (n + 1) := by omega
      rw [harith, ih (n + 1) (fun j hj => hcont j (by omega)),
        probeLoop_step arr key ins s n _ (hcont i (by omega)), iterPos_succ]

theorem probeLoop_find {V : Type} (arr : List (Slot V)) (key : String)
    (ins : Bool) (s h i n : Nat) (hn : i < n)
    (hcont : ∀ j, j < i → stepsOver ins key (slotAt arr (iterPos arr.length h s j)) = true)
    (hstop : stepsOver ins key (slotAt arr (iterPos arr.length h s i)) = false)
    (hne : slotAt arr (iterPos arr.length h s i) = Slot.empty → ins = true) :
    probeLoop arr key ins s n (iterPos arr.length h s 0)
      = .ok (iterPos arr.length h s i) := by
  obtain ⟨d, hd⟩ : ∃ d, n = i + (d + 1) := ⟨n - i - 1, by omega⟩
  rw [hd, probeLoop_walk arr key ins s h i (d + 1) hcont,
    probeLoop_resolve_ok arr key ins s d _ hstop hne]

theorem probeLoop_find_err {V : Type} (arr : List (Slot V)) (key : String)
    (s h i n : Nat) (hn : i < n)
    (hcont : ∀ j, j < i → stepsOver false key (slotAt arr (iterPos arr.length h s j)) = true)
    (hempty : slotAt arr (iterPos arr.length h s i) = Slot.empty) :
    probeLoop arr key false s n (iterPos arr.length h s 0) = .error .keyError := by
  obtain ⟨d, hd⟩ : ∃ d, n = i + (d + 1) := ⟨n - i - 1, by omega⟩
  rw [hd, probeLoop_walk arr key false s h i (d + 1) hcont,
    probeLoop_resolve_err arr key s d _ hempty]

theorem probeLoop_exhaust {V : Type} (arr : List (Slot V)) (key : String)
    (ins : Bool) (s h n : Nat)
    (hcont : ∀ j, j < n → stepsOver ins key (slotAt arr (iterPos arr.length h s j)) = true) :
    probeLoop arr key ins s n (iterPos arr.length h s 0) = .error .full := by
  have h0 : n = n + 0 := rfl
  rw [h0, probeLoop_walk arr key ins s h n 0 hcont]
  rfl

theorem probeLoop_ok_inversion {V : Type} (arr : List (Slot V)) (key : String)
    (ins : Bool) (s h : Nat) :
    ∀ n a p, probeLoop arr key ins s n (iterPos arr.length h s a) = .ok p →
      ∃ i, a ≤ i ∧ i < a + n ∧ p = iterPos arr.length h s i ∧
        (∀ j, a ≤ j → j < i →
          stepsOver ins key (slotAt arr (iterPos arr.length h s j)) = true) ∧
        stepsOver ins key (slotAt arr (iterPos arr.length h s i)) = false ∧
        (slotAt arr (iterPos arr.length h s i) = Slot.empty → ins = true) := by
  intro n
  induction n with
  | zero =>
      intro a p hp
      simp [probeLoop] at hp
  | succ n ih =>
      intro a p hp
      by_cases hso : stepsOver ins key (slotAt arr (iterPos arr.length h s a)) = true
      · rw [probeLoop_step arr key ins s n _ hso, ← iterPos_succ] at hp
        obtain ⟨i, hai, hin, hpi, hpre, hstop, hne⟩ := ih (a + 1) p hp
        refine ⟨i, by omega, by omega, hpi, ?hpre2, hstop, hne⟩
        intro j haj hji
        rcases Nat.eq_or_lt_of_le haj with heq | hlt
        · rw [← heq]; exact hso
        · exact hpre j hlt hji
      · have hso2 : stepsOver ins key (slotAt arr (iterPos arr.length h s a)) = false :=
          Bool.eq_false_iff.mpr hso
        have hne2 : slotAt arr (iterPos arr.length h s a) = Slot.empty → ins = true := by
          intro hempty
          by_contra hit
          have hif : ins = false := Bool.eq_false_iff.mpr hit
          rw [hif] at hp
          rw [probeLoop_resolve_err arr key s n _ hempty] at hp
          cases hp
        have hok := probeLoop_resolve_ok arr key ins s n _ hso2 hne2
        rw [hok] at hp
        cases hp
        exact ⟨a, le_refl a, by omega, rfl,
          fun j h1 h2 => absurd h2 (by omega), hso2, hne2⟩

end HashyStep

namespace HashyStep

/-! ## Probe walks over the table: finding, preserving, uniqueness -/

theorem stepsOver_insert_iff {V : Type} (key : String) (s : Slot V) :
    stepsOver true key s = true ↔ ∃ k w, s = Slot.occ k w ∧ k ≠ key := by
  cases s with
  | empty => simp [stepsOver]
  | del => simp [stepsOver]
  | occ k w =>
      simp only [stepsOver, Bool.not_eq_true']
      constructor
      · intro h
        exact ⟨k, w, rfl, by simpa using h⟩
      · rintro ⟨k2, w2, heq, hne⟩
        cases heq
        simpa using hne

theorem stepsOver_lookup_of_insert {V : Type} (key : String) (s : Slot V)
    (h : stepsOver true key s = true) : stepsOver false key s = true := by
  cases s <;> simp_all [stepsOver]

theorem probePos_set {V : Type} (arr : List (Slot V)) (p : Nat) (x : Slot V)
    (key : String) (i : Nat) :
    probePos (arr.set p x) key i = probePos arr key i := by
  simp [probePos, List.length_set]

theorem probePos_lt {V : Type} (arr : List (Slot V)) (key : String) (i : Nat)
    (hm : 0 < arr.length) : probePos arr key i < arr.length :=
  iterPos_lt _ _ _ _ hm

theorem hashyProbe_as_loop {V : Type} (t : Table V) (key : String) (ins : Bool)
    (hm : 0 < t.array.length) :
    hashyProbe t key ins
      = probeLoop t.array key ins (hash2Key t.array.length key) t.array.length
          (iterPos t.array.length (hashKey t.array.length key)
            (hash2Key t.array.length key) 0) := by
  unfold hashyProbe
  rw [iterPos_zero _ _ _ (hashKey_lt _ key hm)]

theorem hashyProbe_ok_of {V : Type} (t : Table V) (key : String) (ins : Bool)
    (i : Nat) (hi : i < t.array.length)
    (hcont : ∀ j, j < i → stepsOver ins key (slotAt t.array (probePos t.array key j)) = true)
    (hstop : stepsOver ins key (slotAt t.array (probePos t.array key i)) = false)
    (hne : slotAt t.array (probePos t.array key i) = Slot.empty → ins = true) :
    hashyProbe t key ins = .ok (probePos t.array key i) := by
  have hm : 0 < t.array.length := Nat.lt_of_le_of_lt (Nat.zero_le i) hi
  rw [hashyProbe_as_loop t key ins hm]
  exact probeLoop_find t.array key ins _ _ i _ hi hcont hstop hne

theorem hashyProbe_ok_inversion {V : Type} (t : Table V) (key : String)
    (ins : Bool) (p : Nat) (hm : 0 < t.array.length)
    (hp : hashyProbe t key ins = .ok p) :
    ∃ i, i < t.array.length ∧ p = probePos t.array key i ∧
      (∀ j, j < i → stepsOver ins key (slotAt t.array (probePos t.array key j)) = true) ∧
      stepsOver ins key (slotAt t.array (probePos t.array key i)) = false ∧
      (slotAt t.array (probePos t.array key i) = Slot.empty → ins = true) := by
  rw [hashyProbe_as_loop t key ins hm] at hp
  obtain ⟨i, h0i, hin, hpi, hpre, hstop, hne⟩ :=
    probeLoop_ok_inversion t.array key ins (hash2Key t.array.length key)
      (hashKey t.array.length key) t.array.length 0 p hp
  exact ⟨i, by omega, hpi, fun j hj => hpre j (Nat.zero_le j) hj, hstop, hne⟩

theorem getItem_of_FindsVal {V : Type} (t : Table V) (key : String) (v : V)
    (hm : 0 < t.array.length) (hf : FindsVal t.array key v) :
    getItem t key = .ok v := by
  obtain ⟨i, hi, hslot, hpre⟩ := hf
  have hprobe : hashyProbe t key false = .ok (probePos t.array key i) := by
    refine hashyProbe_ok_of t key false i hi
      (fun j hj => stepsOver_lookup_of_insert key _ (hpre j hj)) ?hstop ?hne
    · rw [hslot]; simp [stepsOver]
    · rw [hslot]; intro hc; cases hc
  have hslot2 : t.array.getD (probePos t.array key i) Slot.empty = Slot.occ key v :=
    hslot
  simp only [getItem, hprobe, hslot2]

theorem FindsVal_set_other {V : Type} (arr : List (Slot V)) (key : String)
    (v : V) (key2 : String) (w : V) (p : Nat) (hne : key2 ≠ key)
    (hp : slotAt arr p = Slot.empty ∨ slotAt arr p = Slot.del ∨
      ∃ w0, slotAt arr p = Slot.occ key2 w0)
    (hf : FindsVal arr key v) :
    FindsVal (arr.set p (Slot.occ key2 w)) key v := by
  obtain ⟨i, hi, hslot, hpre⟩ := hf
  have hip : probePos arr key i ≠ p := by
    intro heq
    rw [heq] at hslot
    rcases hp with h | h | ⟨w0, h⟩ <;> rw [h] at hslot
    · cases hslot
    · cases hslot
    · cases hslot; exact hne rfl
  refine ⟨i, by simpa [List.length_set] using hi, ?slot2, ?pre2⟩
  · rw [probePos_set, slotAt_set_ne arr p _ _ hip]
    exact hslot
  · intro j hj
    rw [probePos_set]
    by_cases hjp : probePos arr key j = p
    · rw [hjp]
      by_cases hplen : p < arr.length
      · rw [slotAt_set_self arr p _ hplen]
        simp [stepsOver, hne]
      · rw [List.set_eq_of_length_le (by omega)]
        rw [← hjp]
        exact hpre j hj
    · rw [slotAt_set_ne arr p _ _ hjp]
      exact hpre j hj

theorem FindsVal_establish {V : Type} (arr : List (Slot V)) (key : String)
    (v : V) (i : Nat) (hmp : Nat.Prime arr.length) (hi : i < arr.length)
    (hpre : ∀ j, j < i → stepsOver true key (slotAt arr (probePos arr key j)) = true) :
    FindsVal (arr.set (probePos arr key i) (Slot.occ key v)) key v := by
  have hm0 : 0 < arr.length := hmp.pos
  have hm2 : 2 ≤ arr.length := hmp.two_le
  have hs1 : 1 ≤ hash2Key arr.length key := hash2Key_pos _ _
  have hs2 : hash2Key arr.length key < arr.length := by
    have := hash2Key_le arr.length key hm2
    omega
  have hplt : probePos arr key i < arr.length := probePos_lt arr key i hm0
  refine ⟨i, by simpa [List.length_set] using hi, ?slot2, ?pre2⟩
  · rw [probePos_set, slotAt_set_self arr _ _ hplt]
  · intro j hj
    rw [probePos_set]
    have hjne : probePos arr key j ≠ probePos arr key i := by
      intro heq
      have := iterPos_inj arr.length (hashKey arr.length key)
        (hash2Key arr.length key) j i hmp hs1 hs2 (by omega) hi heq
      omega
    rw [slotAt_set_ne arr _ _ _ hjne]
    exact hpre j hj

theorem NEBK_set_del {V : Type} (arr : List (Slot V)) (p : Nat)
    (h : NoEmptyBeforeKey arr) : NoEmptyBeforeKey (arr.set p Slot.del) := by
  intro k a b hab hb hempty w hocc
  rw [List.length_set] at hb
  rw [probePos_set] at hempty hocc
  by_cases hplen : p < arr.length
  · have hap : probePos arr k a ≠ p := by
      intro heq
      rw [heq, slotAt_set_self arr p _ hplen] at hempty
      cases hempty
    have hbp : probePos arr k b ≠ p := by
      intro heq
      rw [heq, slotAt_set_self arr p _ hplen] at hocc
      cases hocc
    rw [slotAt_set_ne arr p _ _ hap] at hempty
    rw [slotAt_set_ne arr p _ _ hbp] at hocc
    exact h k a b hab hb hempty w hocc
  · rw [List.set_eq_of_length_le (by omega)] at hempty hocc
    exact h k a b hab hb hempty w hocc

theorem NEBK_set_occ {V : Type} (arr : List (Slot V)) (key2 : String) (w : V)
    (i0 : Nat) (hmp : Nat.Prime arr.length) (hi0 : i0 < arr.length)
    (hpre : ∀ j, j < i0 → stepsOver true key2 (slotAt arr (probePos arr key2 j)) = true)
    (h : NoEmptyBeforeKey arr) :
    NoEmptyBeforeKey (arr.set (probePos arr key2 i0) (Slot.occ key2 w)) := by
  have hm0 : 0 < arr.length := hmp.pos
  have hm2 : 2 ≤ arr.length := hmp.two_le
  have hs1 : 1 ≤ hash2Key arr.length key2 := hash2Key_pos _ _
  have hs2 : hash2Key arr.length key2 < arr.length := by
    have := hash2Key_le arr.length key2 hm2
    omega
  have hplt : probePos arr key2 i0 < arr.length := probePos_lt arr key2 i0 hm0
  intro k a b hab hb hempty w2 hocc
  rw [List.length_set] at hb
  rw [probePos_set] at hempty hocc
  have hap : probePos arr k a ≠ probePos arr key2 i0 := by
    intro heq
    rw [heq, slotAt_set_self arr _ _ hplt] at hempty
    cases hempty
  rw [slotAt_set_ne arr _ _ _ hap] at hempty
  by_cases hbp : probePos arr k b = probePos arr key2 i0
  · rw [hbp, slotAt_set_self arr _ _ hplt] at hocc
    cases hocc
    have hbi0 : b = i0 := by
      refine iterPos_inj arr.length (hashKey arr.length key2)
        (hash2Key arr.length key2) b i0 hmp hs1 hs2 hb hi0 ?heq2
      exact hbp
    subst hbi0
    have := hpre a (by omega)
    rw [stepsOver_insert_iff] at this
    obtain ⟨k3, w3, hslot3, _⟩ := this
    rw [hslot3] at hempty
    cases hempty
  · rw [slotAt_set_ne arr _ _ _ hbp] at hocc
    exact h k a b hab hb hempty w2 hocc

theorem unique_of_NEBK {V : Type} (arr : List (Slot V)) (key : String)
    (i0 : Nat) (hmp : Nat.Prime arr.length) (hi0 : i0 < arr.length)
    (hempty : slotAt arr (probePos arr key i0) = Slot.empty)
    (hpre : ∀ j, j < i0 → stepsOver true key (slotAt arr (probePos arr key j)) = true)
    (h : NoEmptyBeforeKey arr) :
    ∀ q, q ≠ probePos arr key i0 → ∀ w, slotAt arr q ≠ Slot.occ key w := by
  have hm0 : 0 < arr.length := hmp.pos
  have hm2 : 2 ≤ arr.length := hmp.two_le
  have hs1 : 1 ≤ hash2Key arr.length key := hash2Key_pos _ _
  have hs2 : hash2Key arr.length key < arr.length := by
    have := hash2Key_le arr.length key hm2
    omega
  intro q hq w hocc
  by_cases hqlen : q < arr.length
  · obtain ⟨j, hj, hjq⟩ := iterPos_surj arr.length (hashKey arr.length key)
      (hash2Key arr.length key) hmp hs1 hs2 q hqlen
    have hjq2 : probePos arr key j = q := hjq
    have hji : j ≠ i0 := by
      intro heq
      rw [heq] at hjq2
      exact hq hjq2.symm
    rcases Nat.lt_or_ge j i0 with hlt | hge
    · have := hpre j hlt
      rw [stepsOver_insert_iff] at this
      obtain ⟨k3, w3, hslot3, hk3⟩ := this
      rw [hjq2, hocc] at hslot3
      cases hslot3
      exact hk3 rfl
    · have hi0j : i0 < j := by omega
      have := h key i0 j hi0j hj hempty w
      rw [hjq2] at this
      exact this hocc
  · rw [slotAt_of_le arr q (by omega)] at hocc
    cases hocc

end HashyStep

namespace HashyStep

/-! ## Counting and occurrence lemmas -/

theorem slotAt_cons_zero {V : Type} (s : Slot V) (rest : List (Slot V)) :
    slotAt (s :: rest) 0 = s := rfl

theorem slotAt_cons_succ {V : Type} (s : Slot V) (rest : List (Slot V))
    (p : Nat) : slotAt (s :: rest) (p + 1) = slotAt rest p := rfl

theorem countNonEmpty_cons {V : Type} (s : Slot V) (rest : List (Slot V)) :
    countNonEmpty (s :: rest)
      = countNonEmpty rest + (match s with | Slot.empty => 0 | _ => 1) := by
  cases s <;> simp [countNonEmpty, List.countP_cons]

theorem countNonEmpty_replicate {V : Type} (n : Nat) :
    countNonEmpty (List.replicate n (Slot.empty : Slot V)) = 0 := by
  induction n with
  | zero => rfl
  | succ n ih => rw [List.replicate_succ, countNonEmpty_cons, ih]; rfl

theorem countNonEmpty_set_empty {V : Type} :
    ∀ (arr : List (Slot V)) (p : Nat), p < arr.length →
      slotAt arr p = Slot.empty → ∀ (k : String) (v : V),
      countNonEmpty (arr.set p (Slot.occ k v)) = countNonEmpty arr + 1 := by
  intro arr
  induction arr with
  | nil => intro p hp; simp at hp
  | cons s rest ih =>
      intro p hp hslot k v
      cases p with
      | zero =>
          rw [slotAt_cons_zero] at hslot
          subst hslot
          simp [List.set_cons_zero, countNonEmpty_cons]
      | succ p =>
          rw [slotAt_cons_succ] at hslot
          rw [List.set_cons_succ, countNonEmpty_cons, countNonEmpty_cons,
            ih p (by simpa using hp) hslot k v]
          omega

theorem countNonEmpty_set_occ {V : Type} :
    ∀ (arr : List (Slot V)) (p : Nat) (k0 : String) (w0 : V),
      slotAt arr p = Slot.occ k0 w0 → ∀ (k : String) (v : V),
      countNonEmpty (arr.set p (Slot.occ k v)) = countNonEmpty arr := by
  intro arr
  induction arr with
  | nil =>
      intro p k0 w0 hslot
      have : slotAt ([] : List (Slot V)) p = Slot.empty := slotAt_of_le _ _ (by simp)
      rw [this] at hslot
      cases hslot
  | cons s rest ih =>
      intro p k0 w0 hslot k v
      cases p with
      | zero =>
          rw [slotAt_cons_zero] at hslot
          subst hslot
          simp [List.set_cons_zero, countNonEmpty_cons]
      | succ p =>
          rw [slotAt_cons_succ] at hslot
          rw [List.set_cons_succ, countNonEmpty_cons, countNonEmpty_cons,
            ih p k0 w0 hslot k v]

theorem occsOf_cons_empty {V : Type} (key : String) (l : List (Slot V)) :
    occsOf key (Slot.empty :: l) = occsOf key l := by
  simp [occsOf, List.filterMap_cons]

theorem occsOf_cons_del {V : Type} (key : String) (l : List (Slot V)) :
    occsOf key (Slot.del :: l) = occsOf key l := by
  simp [occsOf, List.filterMap_cons]

theorem occsOf_cons_occ_self {V : Type} (key : String) (v : V)
    (l : List (Slot V)) :
    occsOf key (Slot.occ key v :: l) = v :: occsOf key l := by
  simp [occsOf, List.filterMap_cons]

theorem occsOf_cons_occ_other {V : Type} (key k : String) (v : V)
    (l : List (Slot V)) (h : ¬(k = key)) :
    occsOf key (Slot.occ k v :: l) = occsOf key l := by
  simp [occsOf, List.filterMap_cons, h]

theorem occsOf_eq_nil {V : Type} (key : String) :
    ∀ (l : List (Slot V)), (∀ q w, slotAt l q ≠ Slot.occ key w) →
      occsOf key l = [] := by
  intro l
  induction l with
  | nil => intro _; rfl
  | cons s rest ih =>
      intro h
      have hrest : occsOf key rest = [] :=
        ih fun q w => by
          have := h (q + 1) w
          rwa [slotAt_cons_succ] at this
      cases s with
      | empty => rw [occsOf_cons_empty]; exact hrest
      | del => rw [occsOf_cons_del]; exact hrest
      | occ k w =>
          have hk : ¬(k = key) := by
            intro heq
            subst heq
            exact h 0 w (slotAt_cons_zero _ _)
          rw [occsOf_cons_occ_other key k w rest hk]
          exact hrest

theorem occsOf_eq_single {V : Type} (key : String) (v : V) :
    ∀ (l : List (Slot V)) (p : Nat), p < l.length →
      slotAt l p = Slot.occ key v →
      (∀ q, q ≠ p → ∀ w, slotAt l q ≠ Slot.occ key w) →
      occsOf key l = [v] := by
  intro l
  induction l with
  | nil => intro p hp; simp at hp
  | cons s rest ih =>
      intro p hp hslot huniq
      cases p with
      | zero =>
          rw [slotAt_cons_zero] at hslot
          subst hslot
          rw [occsOf_cons_occ_self]
          have : occsOf key rest = [] :=
            occsOf_eq_nil key rest fun q w => by
              have := huniq (q + 1) (by omega) w
              rwa [slotAt_cons_succ] at this
          rw [this]
      | succ p =>
          have hs : ∀ w, s ≠ Slot.occ key w := by
            intro w heq
            exact huniq 0 (by omega) w (by rw [slotAt_cons_zero]; exact heq)
          have hrec : occsOf key rest = [v] := by
            refine ih p (by simpa using hp) (by rwa [slotAt_cons_succ] at hslot) ?hu
            intro q hq w
            have := huniq (q + 1) (by omega) w
            rwa [slotAt_cons_succ] at this
          cases s with
          | empty => rw [occsOf_cons_empty]; exact hrec
          | del => rw [occsOf_cons_del]; exact hrec
          | occ k w =>
              have hk : ¬(k = key) := by
                intro heq; subst heq; exact hs w rfl
              rw [occsOf_cons_occ_other key k w rest hk]
              exact hrec

/-! ## Re-insertion fold lemmas -/

theorem reinsertStep_err {V : Type}
    (ins : Table V → String → V → Table V × Option Err) (t : Table V)
    (e : Err) (s : Slot V) :
    reinsertStep ins (t, some e) s = (t, some e) := by
  cases s <;> rfl

theorem foldl_reinsert_err {V : Type}
    (ins : Table V → String → V → Table V × Option Err) :
    ∀ (l : List (Slot V)) (t : Table V) (e : Err),
      List.foldl (reinsertStep ins) (t, some e) l = (t, some e) := by
  intro l
  induction l with
  | nil => intro t e; rfl
  | cons s rest ih =>
      intro t e
      rw [List.foldl_cons, reinsertStep_err, ih]

theorem ReInv_mono {V : Type} (key : String) (v : V) (sz : List Nat)
    (si m2 done done2 : Nat) (T : Table V) (pending : Bool)
    (h : ReInv key v sz si m2 done T pending) (hd : done ≤ done2) :
    ReInv key v sz si m2 done2 T pending :=
  { h with nonEmpty_le := le_trans h.nonEmpty_le hd }

theorem setItemF_succ {V : Type} (fuel : Nat) (t : Table V) (key : String)
    (data : V) :
    setItemF (fuel + 1) t key data
      = match hashyProbe t key true with
        | .error e => (t, some e)
        | .ok pos =>
          let bump : Int :=
            match t.array.getD pos Slot.empty with
            | .empty => 1
            | _ => 0
          let t1 : Table V :=
            { t with array := t.array.set pos (Slot.occ key data),
                     count := t.count + bump }
          if 3 * t1.count > 2 * (t1.array.length : Int) then
            rehashWith (setItemF fuel) t1
          else
            (t1, none) := rfl

end HashyStep

namespace HashyStep

theorem reinsertStep_occ {V : Type}
    (ins : Table V → String → V → Table V × Option Err) (t : Table V)
    (k : String) (v : V) :
    reinsertStep ins (t, none) (Slot.occ k v) = ins t k v := rfl

theorem reinsertStep_empty {V : Type}
    (ins : Table V → String → V → Table V × Option Err) (t : Table V) :
    reinsertStep ins (t, none) Slot.empty = (t, none) := rfl

theorem reinsertStep_del {V : Type}
    (ins : Table V → String → V → Table V × Option Err) (t : Table V) :
    reinsertStep ins (t, none) Slot.del = (t, none) := rfl

theorem setItemF_zero {V : Type} (t : Table V) (key : String) (data : V) :
    setItemF 0 t key data = (t, some .fuelOut) := rfl

theorem setItemF_probe_err {V : Type} (g : Nat) (t : Table V) (key : String)
    (data : V) (e : Err) (hpr : hashyProbe t key true = .error e) :
    setItemF (g + 1) t key data = (t, some e) := by
  simp only [setItemF_succ, hpr]

theorem setItemF_ok_empty {V : Type} (g : Nat) (t : Table V) (key : String)
    (data : V) (p : Nat) (hpr : hashyProbe t key true = .ok p)
    (hsl : slotAt t.array p = Slot.empty)
    (hth : ¬(3 * (t.count + 1) > 2 * (t.array.length : Int))) :
    setItemF (g + 1) t key data
      = ({ t with
            array := t.array.set p (Slot.occ key data),
            count := t.count + 1 }, none) := by
  have hg : t.array.getD p Slot.empty = Slot.empty := hsl
  simp only [setItemF_succ, hpr, hg, List.length_set]
  rw [if_neg hth]

theorem setItemF_ok_empty_rehash {V : Type} (g : Nat) (t : Table V)
    (key : String) (data : V) (p : Nat) (hpr : hashyProbe t key true = .ok p)
    (hsl : slotAt t.array p = Slot.empty)
    (hth : 3 * (t.count + 1) > 2 * (t.array.length : Int)) :
    setItemF (g + 1) t key data
      = rehashWith (setItemF g)
          { t with
            array := t.array.set p (Slot.occ key data),
            count := t.count + 1 } := by
  have hg : t.array.getD p Slot.empty = Slot.empty := hsl
  simp only [setItemF_succ, hpr, hg, List.length_set]
  rw [if_pos hth]

theorem setItemF_ok_del {V : Type} (g : Nat) (t : Table V) (key : String)
    (data : V) (p : Nat) (hpr : hashyProbe t key true = .ok p)
    (hsl : slotAt t.array p = Slot.del)
    (hth : ¬(3 * t.count > 2 * (t.array.length : Int))) :
    setItemF (g + 1) t key data
      = ({ t with array := t.array.set p (Slot.occ key data) }, none) := by
  have hg : t.array.getD p Slot.empty = Slot.del := hsl
  simp only [setItemF_succ, hpr, hg, List.length_set]
  rw [Int.add_zero]
  rw [if_neg hth]

theorem setItemF_ok_occ {V : Type} (g : Nat) (t : Table V) (key : String)
    (data : V) (p : Nat) (k0 : String) (w0 : V)
    (hpr : hashyProbe t key true = .ok p)
    (hsl : slotAt t.array p = Slot.occ k0 w0)
    (hth : ¬(3 * t.count > 2 * (t.array.length : Int))) :
    setItemF (g + 1) t key data
      = ({ t with array := t.array.set p (Slot.occ key data) }, none) := by
  have hg : t.array.getD p Slot.empty = Slot.occ k0 w0 := hsl
  simp only [setItemF_succ, hpr, hg, List.length_set]
  rw [Int.add_zero]
  rw [if_neg hth]

theorem setItemF_ok_nonempty_rehash {V : Type} (g : Nat) (t : Table V)
    (key : String) (data : V) (p : Nat)
    (hpr : hashyProbe t key true = .ok p)
    (hsl : slotAt t.array p ≠ Slot.empty)
    (hth : 3 * t.count > 2 * (t.array.length : Int)) :
    setItemF (g + 1) t key data
      = rehashWith (setItemF g)
          { t with array := t.array.set p (Slot.occ key data) } := by
  cases hs : slotAt t.array p with
  | empty => exact absurd hs hsl
  | del =>
      have hg : t.array.getD p Slot.empty = Slot.del := hs
      simp only [setItemF_succ, hpr, hg, List.length_set]
      rw [Int.add_zero]
      rw [if_pos hth]
  | occ k0 w0 =>
      have hg : t.array.getD p Slot.empty = Slot.occ k0 w0 := hs
      simp only [setItemF_succ, hpr, hg, List.length_set]
      rw [Int.add_zero]
      rw [if_pos hth]

end HashyStep

namespace HashyStep

theorem noTomb_set_occ {V : Type} (arr : List (Slot V)) (j : String) (w : V)
    (p : Nat) (h : ∀ q, slotAt arr q ≠ Slot.del) :
    ∀ q, slotAt (arr.set p (Slot.occ j w)) q ≠ Slot.del := by
  intro q hdel
  by_cases hqp : q = p
  · subst hqp
    by_cases hlen : q < arr.length
    · rw [slotAt_set_self _ _ _ hlen] at hdel
      cases hdel
    · rw [List.set_eq_of_length_le (by omega)] at hdel
      exact h q hdel
  · rw [slotAt_set_ne _ _ _ _ hqp] at hdel
    exact h q hdel

theorem noK_set_other {V : Type} (arr : List (Slot V)) (key j : String)
    (w : V) (p : Nat) (hj : ¬(j = key))
    (h : ∀ q w2, slotAt arr q ≠ Slot.occ key w2) :
    ∀ q w2, slotAt (arr.set p (Slot.occ j w)) q ≠ Slot.occ key w2 := by
  intro q w2 hocc
  by_cases hqp : q = p
  · subst hqp
    by_cases hlen : q < arr.length
    · rw [slotAt_set_self _ _ _ hlen] at hocc
      cases hocc
      exact hj rfl
    · rw [List.set_eq_of_length_le (by omega)] at hocc
      exact h q w2 hocc
  · rw [slotAt_set_ne _ _ _ _ hqp] at hocc
    exact h q w2 hocc

end HashyStep

namespace HashyStep

/-- Building the re-insertion invariant after writing the distinguished
`(key, v)` pair over an Empty slot at its probe-resolved position. -/
theorem ReInv_write_key {V : Type} (key : String) (v : V) (sz : List Nat)
    (si m2 done : Nat) (T : Table V) (i : Nat)
    (hInv : ReInv key v sz si m2 done T true)
    (hmpT : Nat.Prime T.array.length) (hm2 : T.array.length = m2)
    (hi : i < T.array.length)
    (hpre : ∀ a, a < i → stepsOver true key (slotAt T.array (probePos T.array key a)) = true)
    (hsl : slotAt T.array (probePos T.array key i) = Slot.empty) :
    ReInv key v sz si m2 (done + 1)
      { T with
        array := T.array.set (probePos T.array key i) (Slot.occ key v),
        count := T.count + 1 } false := by
  have hplt : probePos T.array key i < T.array.length :=
    probePos_lt _ _ _ hmpT.pos
  have hcneq : countNonEmpty (T.array.set (probePos T.array key i) (Slot.occ key v))
      = countNonEmpty T.array + 1 :=
    countNonEmpty_set_empty T.array _ hplt hsl key v
  refine { sizes_eq := hInv.sizes_eq, sizeIndex_eq := hInv.sizeIndex_eq,
           len_eq := ?len, noTomb := ?noTomb, nonEmpty_le := ?ne,
           count_le := ?cl, count_nonneg := ?cn, nebo := ?nebo,
           keyState := ?ks }
  · show (T.array.set (probePos T.array key i) (Slot.occ key v)).length = m2
    rw [List.length_set]
    exact hm2
  · exact noTomb_set_occ T.array key v _ hInv.noTomb
  · show countNonEmpty (T.array.set (probePos T.array key i) (Slot.occ key v)) ≤ done + 1
    rw [hcneq]
    exact Nat.add_le_add_right hInv.nonEmpty_le 1
  · show T.count + 1 ≤ (countNonEmpty (T.array.set (probePos T.array key i) (Slot.occ key v)) : Int)
    rw [hcneq]
    have := hInv.count_le
    push_cast
    omega
  · show (0 : Int) ≤ T.count + 1
    have := hInv.count_nonneg
    omega
  · exact NEBK_set_occ T.array key v i hmpT hi hpre hInv.nebo
  · exact FindsVal_establish T.array key v i hmpT hi hpre

/-- Building the re-insertion invariant after writing some other key's pair
over an Empty slot at its probe-resolved position. -/
theorem ReInv_write_other_empty {V : Type} (key : String) (v : V)
    (sz : List Nat) (si m2 done : Nat) (T : Table V) (pending : Bool)
    (j : String) (w : V) (i : Nat)
    (hInv : ReInv key v sz si m2 done T pending)
    (hmpT : Nat.Prime T.array.length) (hm2 : T.array.length = m2)
    (hi : i < T.array.length) (hkj : ¬(j = key))
    (hpre : ∀ a, a < i → stepsOver true j (slotAt T.array (probePos T.array j a)) = true)
    (hsl : slotAt T.array (probePos T.array j i) = Slot.empty) :
    ReInv key v sz si m2 (done + 1)
      { T with
        array := T.array.set (probePos T.array j i) (Slot.occ j w),
        count := T.count + 1 } pending := by
  have hplt : probePos T.array j i < T.array.length :=
    probePos_lt _ _ _ hmpT.pos
  have hcneq : countNonEmpty (T.array.set (probePos T.array j i) (Slot.occ j w))
      = countNonEmpty T.array + 1 :=
    countNonEmpty_set_empty T.array _ hplt hsl j w
  refine { sizes_eq := hInv.sizes_eq, sizeIndex_eq := hInv.sizeIndex_eq,
           len_eq := ?len, noTomb := ?noTomb, nonEmpty_le := ?ne,
           count_le := ?cl, count_nonneg := ?cn, nebo := ?nebo,
           keyState := ?ks }
  · show (T.array.set (probePos T.array j i) (Slot.occ j w)).length = m2
    rw [List.length_set]
    exact hm2
  · exact noTomb_set_occ T.array j w _ hInv.noTomb
  · show countNonEmpty (T.array.set (probePos T.array j i) (Slot.occ j w)) ≤ done + 1
    rw [hcneq]
    exact Nat.add_le_add_right hInv.nonEmpty_le 1
  · show T.count + 1 ≤ (countNonEmpty (T.array.set (probePos T.array j i) (Slot.occ j w)) : Int)
    rw [hcneq]
    have := hInv.count_le
    push_cast
    omega
  · show (0 : Int) ≤ T.count + 1
    have := hInv.count_nonneg
    omega
  · exact NEBK_set_occ T.array j w i hmpT hi hpre hInv.nebo
  · cases pending with
    | true =>
        simp only [if_true]
        have h0 : ∀ q w2, slotAt T.array q ≠ Slot.occ key w2 := by
          simpa using hInv.keyState
        exact noK_set_other T.array key j w _ hkj h0
    | false =>
        simp only [Bool.false_eq_true, if_false]
        have h0 : FindsVal T.array key v := by
          simpa using hInv.keyState
        exact FindsVal_set_other T.array key v j w _ hkj (Or.inl hsl) h0

/-- Building the re-insertion invariant after updating another key's pair
in place (the resolved slot already held that key). -/
theorem ReInv_write_other_occ {V : Type} (key : String) (v : V)
    (sz : List Nat) (si m2 done : Nat) (T : Table V) (pending : Bool)
    (j : String) (w w0 : V) (i : Nat)
    (hInv : ReInv key v sz si m2 done T pending)
    (hmpT : Nat.Prime T.array.length) (hm2 : T.array.length = m2)
    (hi : i < T.array.length) (hkj : ¬(j = key))
    (hpre : ∀ a, a < i → stepsOver true j (slotAt T.array (probePos T.array j a)) = true)
    (hsl : slotAt T.array (probePos T.array j i) = Slot.occ j w0) :
    ReInv key v sz si m2 (done + 1)
      { T with
        array := T.array.set (probePos T.array j i) (Slot.occ j w) } pending := by
  have hcneq : countNonEmpty (T.array.set (probePos T.array j i) (Slot.occ j w))
      = countNonEmpty T.array :=
    countNonEmpty_set_occ T.array _ j w0 hsl j w
  refine { sizes_eq := hInv.sizes_eq, sizeIndex_eq := hInv.sizeIndex_eq,
           len_eq := ?len, noTomb := ?noTomb, nonEmpty_le := ?ne,
           count_le := ?cl, count_nonneg := hInv.count_nonneg, nebo := ?nebo,
           keyState := ?ks }
  · show (T.array.set (probePos T.array j i) (Slot.occ j w)).length = m2
    rw [List.length_set]
    exact hm2
  · exact noTomb_set_occ T.array j w _ hInv.noTomb
  · show countNonEmpty (T.array.set (probePos T.array j i) (Slot.occ j w)) ≤ done + 1
    rw [hcneq]
    have := hInv.nonEmpty_le
    omega
  · show T.count ≤ (countNonEmpty (T.array.set (probePos T.array j i) (Slot.occ j w)) : Int)
    rw [hcneq]
    exact hInv.count_le
  · exact NEBK_set_occ T.array j w i hmpT hi hpre hInv.nebo
  · cases pending with
    | true =>
        simp only [if_true]
        have h0 : ∀ q w2, slotAt T.array q ≠ Slot.occ key w2 := by
          simpa using hInv.keyState
        exact noK_set_other T.array key j w _ hkj h0
    | false =>
        simp only [Bool.false_eq_true, if_false]
        have h0 : FindsVal T.array key v := by
          simpa using hInv.keyState
        exact FindsVal_set_other T.array key v j w _ hkj
          (Or.inr (Or.inr ⟨w0, hsl⟩)) h0

end HashyStep

namespace HashyStep

/-- The central lemma about the re-insertion loop of `_rehash`: folding the
old items into a fresh prime-capacity table whose item budget `total`
satisfies `3 * total ≤ 2 * m2` never triggers a nested rehash, preserves
the re-insertion invariant, and — whenever the fold completes without
raising — has inserted the distinguished `(key, v)` pair, so that `key`'s
probe walk finds `v`. -/
theorem reinsert_go {V : Type} (key : String) (v : V) (fuel : Nat)
    (sz : List Nat) (si : Nat) (m2 total : Nat) (hmp : Nat.Prime m2)
    (htot : 3 * (total : Int) ≤ 2 * (m2 : Int)) :
    ∀ (items : List (Slot V)) (T : Table V) (done : Nat) (pending : Bool),
      ReInv key v sz si m2 done T pending →
      occsOf key items = (if pending then [v] else []) →
      done + items.length ≤ total →
      ∃ pending2,
        ReInv key v sz si m2 (done + items.length)
          (List.foldl (reinsertStep (setItemF fuel)) (T, none) items).1 pending2 ∧
        ((List.foldl (reinsertStep (setItemF fuel)) (T, none) items).2 = none →
          pending2 = false) := by
  intro items
  induction items with
  | nil =>
      intro T done pending hInv hocc hlen
      cases pending with
      | true => simp [occsOf] at hocc
      | false => exact ⟨false, by simpa using hInv, fun _ => rfl⟩
  | cons s rest ih =>
      intro T done pending hInv hocc hlen
      have hlen1 : done + 1 + rest.length ≤ total := by
        simp only [List.length_cons] at hlen
        omega
      have hidx : done + (s :: rest).length = done + 1 + rest.length := by
        simp only [List.length_cons]
        omega
      rw [hidx, List.foldl_cons]
      cases s with
      | empty =>
          rw [reinsertStep_empty]
          rw [occsOf_cons_empty] at hocc
          exact ih T (done + 1) pending
            (ReInv_mono _ _ _ _ _ _ _ _ _ hInv (by omega)) hocc hlen1
      | del =>
          rw [reinsertStep_del]
          rw [occsOf_cons_del] at hocc
          exact ih T (done + 1) pending
            (ReInv_mono _ _ _ _ _ _ _ _ _ hInv (by omega)) hocc hlen1
      | occ j w =>
          rw [reinsertStep_occ]
          cases fuel with
          | zero =>
              rw [setItemF_zero, foldl_reinsert_err]
              exact ⟨pending, ReInv_mono _ _ _ _ _ _ _ _ _ hInv (by omega),
                fun h => nomatch h⟩
          | succ g =>
              cases hpr : hashyProbe T j true with
              | error e =>
                  rw [setItemF_probe_err g T j w e hpr, foldl_reinsert_err]
                  exact ⟨pending, ReInv_mono _ _ _ _ _ _ _ _ _ hInv (by omega),
                    fun h => nomatch h⟩
              | ok p =>
                  have hm0 : 0 < T.array.length := by
                    rw [hInv.len_eq]; exact hmp.pos
                  have hmpT : Nat.Prime T.array.length := by
                    rw [hInv.len_eq]; exact hmp
                  obtain ⟨i, hi, hpi, hpre, hstop, hne⟩ :=
                    hashyProbe_ok_inversion T j true p hm0 hpr
                  subst hpi
                  have hcne : (countNonEmpty T.array : Int) ≤ (done : Int) := by
                    exact_mod_cast hInv.nonEmpty_le
                  have hcl : T.count ≤ (countNonEmpty T.array : Int) :=
                    hInv.count_le
                  have hlenm2 : T.array.length = m2 := hInv.len_eq
                  have hdt : (done : Int) + 1 ≤ (total : Int) := by
                    exact_mod_cast (show done + 1 ≤ total by omega)
                  cases hsl : slotAt T.array (probePos T.array j i) with
                  | del => exact absurd hsl (hInv.noTomb _)
                  | empty =>
                      have hth : ¬(3 * (T.count + 1) > 2 * (T.array.length : Int)) := by
                        rw [hlenm2]
                        omega
                      rw [setItemF_ok_empty g T j w _ hpr hsl hth]
                      by_cases hkj : j = key
                      · subst j
                        cases pending with
                        | false =>
                            rw [occsOf_cons_occ_self] at hocc
                            simp at hocc
                        | true =>
                            rw [occsOf_cons_occ_self] at hocc
                            simp only [if_pos] at hocc
                            rw [List.cons_eq_cons] at hocc
                            obtain ⟨hw, hrest⟩ := hocc
                            subst w
                            exact ih _ (done + 1) false
                              (ReInv_write_key key v sz si m2 done T i hInv
                                hmpT hlenm2 hi hpre hsl)
                              (by simpa using hrest) hlen1
                      · rw [occsOf_cons_occ_other key j w rest hkj] at hocc
                        exact ih _ (done + 1) pending
                          (ReInv_write_other_empty key v sz si m2 done T
                            pending j w i hInv hmpT hlenm2 hi hkj hpre hsl)
                          hocc hlen1
                  | occ k0 w0 =>
                      rw [hsl] at hstop
                      have hk0 : k0 = j := by
                        simpa [stepsOver] using hstop
                      subst k0
                      by_cases hkj : j = key
                      · subst j
                        cases pending with
                        | true =>
                            have h0 : ∀ q w2, slotAt T.array q ≠ Slot.occ key w2 := by
                              simpa using hInv.keyState
                            exact absurd hsl (h0 _ w0)
                        | false =>
                            rw [occsOf_cons_occ_self] at hocc
                            simp at hocc
                      · have hth0 : ¬(3 * T.count > 2 * (T.array.length : Int)) := by
                          rw [hlenm2]
                          omega
                        rw [setItemF_ok_occ g T j w _ j w0 hpr hsl hth0]
                        rw [occsOf_cons_occ_other key j w rest hkj] at hocc
                        exact ih _ (done + 1) pending
                          (ReInv_write_other_occ key v sz si m2 done T
                            pending j w w0 i hInv hmpT hlenm2 hi hkj hpre hsl)
                          hocc hlen1

end HashyStep

namespace HashyStep

/-! ## Facts about the default size list and the resize step -/

theorem TS_prime : ∀ x ∈ TABLE_SIZES, Nat.Prime x := by
  intro x hx
  fin_cases hx <;> norm_num

theorem TS_five : ∀ x ∈ TABLE_SIZES, 5 ≤ x := by
  intro x hx
  fin_cases hx <;> norm_num

theorem TS_ratio : ∀ i, i < TABLE_SIZES.length - 1 →
    3 * TABLE_SIZES.getD i 0 ≤ 2 * TABLE_SIZES.getD (i + 1) 0 := by
  decide

theorem get?_eq_some_getD (l : List Nat) (i : Nat) (h : i < l.length) :
    l.get? i = some (l.getD i 0) := by
  cases hg : l.get? i with
  | none =>
      rw [List.get?_eq_none] at hg
      omega
  | some a =>
      rw [List.getD_eq_getD_get?, hg]
      rfl

theorem rehashWith_exhausted {V : Type}
    (ins : Table V → String → V → Table V × Option Err) (t : Table V)
    (h : t.sizes.length ≤ t.sizeIndex + 1) :
    rehashWith ins t = ({ t with sizeIndex := t.sizeIndex + 1 }, some .full) := by
  unfold rehashWith
  rw [if_pos h]

theorem rehashWith_go {V : Type}
    (ins : Table V → String → V → Table V × Option Err) (t : Table V)
    (h : ¬(t.sizes.length ≤ t.sizeIndex + 1)) :
    rehashWith ins t
      = t.array.foldl (reinsertStep ins)
          ({ t with
              sizeIndex := t.sizeIndex + 1,
              array := List.replicate (t.sizes.getD (t.sizeIndex + 1) 0) Slot.empty,
              count := 0 }, none) := by
  unfold rehashWith
  rw [if_neg h]

end HashyStep

namespace HashyStep

/-- `_rehash` on a well-formed table (with `key` stored exactly once, with
value `v`): the result is invariant-preserving, and on success the new
table's probe walk for `key` finds `v`. -/
theorem rehash_master {V : Type} (g : Nat) (T : Table V) (key : String)
    (v : V) (hsz : T.sizes = TABLE_SIZES)
    (hget : T.sizes.get? T.sizeIndex = some T.array.length)
    (hnebo : NoEmptyBeforeKey T.array)
    (hocc1 : occsOf key T.array = [v]) :
    Inv (rehashWith (setItemF g) T).1 ∧
      ((rehashWith (setItemF g) T).2 = none →
        FindsVal (rehashWith (setItemF g) T).1.array key v) := by
  have hsi : T.sizeIndex < T.sizes.length := by
    by_contra hc
    rw [List.get?_eq_none.mpr (by omega)] at hget
    cases hget
  have hmoldmem : T.array.length ∈ TABLE_SIZES := by
    rw [← hsz]
    exact List.get?_mem hget
  by_cases hex : T.sizes.length ≤ T.sizeIndex + 1
  · rw [rehashWith_exhausted _ _ hex]
    exact ⟨⟨hsz, hmoldmem, hnebo, Or.inr hex⟩, fun h => nomatch h⟩
  · rw [rehashWith_go _ _ hex]
    have hsi1 : T.sizeIndex + 1 < T.sizes.length := by omega
    have hget1 : T.sizes.get? (T.sizeIndex + 1)
        = some (T.sizes.getD (T.sizeIndex + 1) 0) :=
      get?_eq_some_getD _ _ hsi1
    have hm2mem : T.sizes.getD (T.sizeIndex + 1) 0 ∈ TABLE_SIZES := by
      rw [← hsz]
      exact List.get?_mem hget1
    have hm2p : Nat.Prime (T.sizes.getD (T.sizeIndex + 1) 0) :=
      TS_prime _ hm2mem
    have hmold : T.array.length = T.sizes.getD T.sizeIndex 0 := by
      have h2 := get?_eq_some_getD T.sizes T.sizeIndex hsi
      rw [hget] at h2
      exact Option.some.inj h2
    have hratio : 3 * T.array.length ≤ 2 * T.sizes.getD (T.sizeIndex + 1) 0 := by
      rw [hmold, hsz]
      rw [hsz] at hsi1
      exact TS_ratio T.sizeIndex (by omega)
    have hRe : ReInv key v T.sizes (T.sizeIndex + 1)
        (T.sizes.getD (T.sizeIndex + 1) 0) 0
        { T with
          sizeIndex := T.sizeIndex + 1,
          array := List.replicate (T.sizes.getD (T.sizeIndex + 1) 0) Slot.empty,
          count := 0 } true :=
      { sizes_eq := rfl
        sizeIndex_eq := rfl
        len_eq := by
          show (List.replicate _ (Slot.empty : Slot V)).length = _
          rw [List.length_replicate]
        noTomb := by
          intro q h
          rw [slotAt_replicate_all] at h
          cases h
        nonEmpty_le := by
          show countNonEmpty (List.replicate _ (Slot.empty : Slot V)) ≤ 0
          rw [countNonEmpty_replicate]
        count_le := by
          show (0 : Int) ≤ _
          rw [countNonEmpty_replicate]
          norm_num
        count_nonneg := le_refl 0
        nebo := by
          intro k a b hab hb hempty w hocc
          rw [slotAt_replicate_all] at hocc
          cases hocc
        keyState := by
          intro p w h
          rw [slotAt_replicate_all] at h
          cases h }
    obtain ⟨pending2, hR, hP⟩ :=
      reinsert_go key v g T.sizes (T.sizeIndex + 1)
        (T.sizes.getD (T.sizeIndex + 1) 0) T.array.length hm2p
        (by exact_mod_cast hratio) T.array
        { T with
          sizeIndex := T.sizeIndex + 1,
          array := List.replicate (T.sizes.getD (T.sizeIndex + 1) 0) Slot.empty,
          count := 0 } 0 true hRe (by simpa using hocc1) (by omega)
    refine ⟨⟨?sz, ?mem, hR.nebo, Or.inl ⟨?link, ?cnt⟩⟩, fun hFe => ?fv⟩
    · rw [hR.sizes_eq]
      exact hsz
    · rw [hR.len_eq]
      exact hm2mem
    · rw [hR.sizes_eq, hR.sizeIndex_eq, hR.len_eq]
      exact hget1
    · have h1 := hR.count_le
      have h2 : countNonEmpty
          (List.foldl (reinsertStep (setItemF g))
            ({ T with
              sizeIndex := T.sizeIndex + 1,
              array := List.replicate (T.sizes.getD (T.sizeIndex + 1) 0) Slot.empty,
              count := 0 }, none) T.array).1.array ≤ T.array.length := by
        have := hR.nonEmpty_le
        omega
      have h2i : (countNonEmpty
          (List.foldl (reinsertStep (setItemF g))
            ({ T with
              sizeIndex := T.sizeIndex + 1,
              array := List.replicate (T.sizes.getD (T.sizeIndex + 1) 0) Slot.empty,
              count := 0 }, none) T.array).1.array : Int) ≤ (T.array.length : Int) := by
        exact_mod_cast h2
      have hri : (3 : Int) * (T.array.length : Int)
          ≤ 2 * (T.sizes.getD (T.sizeIndex + 1) 0 : Int) := by
        exact_mod_cast hratio
      rw [hR.len_eq]
      omega
    · have hp2 := hP hFe
      have hk := hR.keyState
      rw [hp2] at hk
      simpa using hk

end HashyStep

namespace HashyStep

/-- Master lemma for `__setitem__`: for any fuel, on a well-formed table
the operation preserves well-formedness, and whenever it completes without
raising, the probe walk of the written key finds the written value. -/
theorem setItemF_master {V : Type} (fuel : Nat) (t : Table V) (key : String)
    (v : V) (hI : Inv t) :
    Inv (setItemF fuel t key v).1 ∧
      ((setItemF fuel t key v).2 = none →
        FindsVal (setItemF fuel t key v).1.array key v) := by
  obtain ⟨hsz, hmem, hnebo, hlink⟩ := hI
  cases fuel with
  | zero =>
      rw [setItemF_zero]
      exact ⟨⟨hsz, hmem, hnebo, hlink⟩, fun h => nomatch h⟩
  | succ g =>
      have hm5 : 5 ≤ t.array.length := TS_five _ hmem
      have hm0 : 0 < t.array.length := by omega
      have hmpT : Nat.Prime t.array.length := TS_prime _ hmem
      cases hpr : hashyProbe t key true with
      | error e =>
          rw [setItemF_probe_err g t key v e hpr]
          exact ⟨⟨hsz, hmem, hnebo, hlink⟩, fun h => nomatch h⟩
      | ok p =>
          obtain ⟨i, hi, hpi, hpre, hstop, hne⟩ :=
            hashyProbe_ok_inversion t key true p hm0 hpr
          subst hpi
          have hplt : probePos t.array key i < t.array.length :=
            probePos_lt _ _ _ hm0
          cases hsl : slotAt t.array (probePos t.array key i) with
          | empty =>
              by_cases hth : 3 * (t.count + 1) > 2 * (t.array.length : Int)
              · rw [setItemF_ok_empty_rehash g t key v _ hpr hsl hth]
                rcases hlink with ⟨hget, hcnt⟩ | hex2
                · have huniq :=
                    unique_of_NEBK t.array key i hmpT hi hsl hpre hnebo
                  refine rehash_master g _ key v hsz ?hget2 ?hnebo2 ?hocc2
                  · show t.sizes.get? t.sizeIndex = some
                      ((t.array.set (probePos t.array key i) (Slot.occ key v)).length)
                    rw [List.length_set]
                    exact hget
                  · exact NEBK_set_occ t.array key v i hmpT hi hpre hnebo
                  · show occsOf key
                      (t.array.set (probePos t.array key i) (Slot.occ key v)) = [v]
                    refine occsOf_eq_single key v _ (probePos t.array key i)
                      ?plt ?pslot ?puniq
                    · rw [List.length_set]
                      exact hplt
                    · exact slotAt_set_self _ _ _ hplt
                    · intro q hq w
                      rw [slotAt_set_ne _ _ _ _ hq]
                      exact huniq q hq w
                · rw [rehashWith_exhausted (setItemF g)]
                  · refine ⟨⟨hsz, ?mem3, ?nebo3,
                      Or.inr (show t.sizes.length ≤ t.sizeIndex + 1 by omega)⟩,
                      fun h => nomatch h⟩
                    · show (t.array.set (probePos t.array key i)
                        (Slot.occ key v)).length ∈ TABLE_SIZES
                      rw [List.length_set]
                      exact hmem
                    · exact NEBK_set_occ t.array key v i hmpT hi hpre hnebo
                  · show t.sizes.length ≤ t.sizeIndex + 1
                    omega
              · rw [setItemF_ok_empty g t key v _ hpr hsl hth]
                refine ⟨⟨hsz, ?mem4, ?nebo4, ?link4⟩, fun _ => ?fv4⟩
                · show (t.array.set (probePos t.array key i)
                    (Slot.occ key v)).length ∈ TABLE_SIZES
                  rw [List.length_set]
                  exact hmem
                · exact NEBK_set_occ t.array key v i hmpT hi hpre hnebo
                · rcases hlink with ⟨hget, hcnt⟩ | hex2
                  · refine Or.inl ⟨?l1, ?l2⟩
                    · show t.sizes.get? t.sizeIndex = some
                        ((t.array.set (probePos t.array key i) (Slot.occ key v)).length)
                      rw [List.length_set]
                      exact hget
                    · show 3 * (t.count + 1) ≤ 2 *
                        (((t.array.set (probePos t.array key i) (Slot.occ key v)).length : Int))
                      rw [List.length_set]
                      omega
                  · exact Or.inr hex2
                · exact FindsVal_establish t.array key v i hmpT hi hpre
          | del =>
              have hslne : slotAt t.array (probePos t.array key i) ≠ Slot.empty := by
                rw [hsl]
                exact fun h => nomatch h
              by_cases hth : 3 * t.count > 2 * (t.array.length : Int)
              · rcases hlink with ⟨hget, hcnt⟩ | hex2
                · exact absurd hth (by omega)
                · rw [setItemF_ok_nonempty_rehash g t key v _ hpr hslne hth]
                  rw [rehashWith_exhausted (setItemF g)]
                  · refine ⟨⟨hsz, ?mem5, ?nebo5,
                      Or.inr (show t.sizes.length ≤ t.sizeIndex + 1 by omega)⟩,
                      fun h => nomatch h⟩
                    · show (t.array.set (probePos t.array key i)
                        (Slot.occ key v)).length ∈ TABLE_SIZES
                      rw [List.length_set]
                      exact hmem
                    · exact NEBK_set_occ t.array key v i hmpT hi hpre hnebo
                  · show t.sizes.length ≤ t.sizeIndex + 1
                    omega
              · rw [setItemF_ok_del g t key v _ hpr hsl hth]
                refine ⟨⟨hsz, ?mem6, ?nebo6, ?link6⟩, fun _ => ?fv6⟩
                · show (t.array.set (probePos t.array key i)
                    (Slot.occ key v)).length ∈ TABLE_SIZES
                  rw [List.length_set]
                  exact hmem
                · exact NEBK_set_occ t.array key v i hmpT hi hpre hnebo
                · rcases hlink with ⟨hget, hcnt⟩ | hex2
                  · refine Or.inl ⟨?l3, ?l4⟩
                    · show t.sizes.get? t.sizeIndex = some
                        ((t.array.set (probePos t.array key i) (Slot.occ key v)).length)
                      rw [List.length_set]
                      exact hget
                    · show 3 * t.count ≤ 2 *
                        (((t.array.set (probePos t.array key i) (Slot.occ key v)).length : Int))
                      rw [List.length_set]
                      omega
                  · exact Or.inr hex2
                · exact FindsVal_establish t.array key v i hmpT hi hpre
          | occ k0 w0 =>
              rw [hsl] at hstop
              have hk0 : k0 = key := by
                simpa [stepsOver] using hstop
              subst k0
              have hslne : slotAt t.array (probePos t.array key i) ≠ Slot.empty := by
                rw [hsl]
                exact fun h => nomatch h
              by_cases hth : 3 * t.count > 2 * (t.array.length : Int)
              · rcases hlink with ⟨hget, hcnt⟩ | hex2
                · exact absurd hth (by omega)
                · rw [setItemF_ok_nonempty_rehash g t key v _ hpr hslne hth]
                  rw [rehashWith_exhausted (setItemF g)]
                  · refine ⟨⟨hsz, ?mem7, ?nebo7,
                      Or.inr (show t.sizes.length ≤ t.sizeIndex + 1 by omega)⟩,
                      fun h => nomatch h⟩
                    · show (t.array.set (probePos t.array key i)
                        (Slot.occ key v)).length ∈ TABLE_SIZES
                      rw [List.length_set]
                      exact hmem
                    · exact NEBK_set_occ t.array key v i hmpT hi hpre hnebo
                  · show t.sizes.length ≤ t.sizeIndex + 1
                    omega
              · rw [setItemF_ok_occ g t key v _ key w0 hpr hsl hth]
                refine ⟨⟨hsz, ?mem8, ?nebo8, ?link8⟩, fun _ => ?fv8⟩
                · show (t.array.set (probePos t.array key i)
                    (Slot.occ key v)).length ∈ TABLE_SIZES
                  rw [List.length_set]
                  exact hmem
                · exact NEBK_set_occ t.array key v i hmpT hi hpre hnebo
                · rcases hlink with ⟨hget, hcnt⟩ | hex2
                  · refine Or.inl ⟨?l5, ?l6⟩
                    · show t.sizes.get? t.sizeIndex = some
                        ((t.array.set (probePos t.array key i) (Slot.occ key v)).length)
                      rw [List.length_set]
                      exact hget
                    · show 3 * t.count ≤ 2 *
                        (((t.array.set (probePos t.array key i) (Slot.occ key v)).length : Int))
                      rw [List.length_set]
                      omega
                  · exact Or.inr hex2
                · exact FindsVal_establish t.array key v i hmpT hi hpre

end HashyStep

namespace HashyStep

/-! ## Invariants of reachable tables -/

theorem deleteItem_ok {V : Type} (t : Table V) (key : String) (p : Nat)
    (hpr : hashyProbe t key false = .ok p) :
    deleteItem t key
      = ({ t with array := t.array.set p Slot.del, count := t.count - 1 },
          none) := by
  simp only [deleteItem, hpr]

theorem deleteItem_err {V : Type} (t : Table V) (key : String) (e : Err)
    (hpr : hashyProbe t key false = .error e) :
    deleteItem t key = (t, some e) := by
  simp only [deleteItem, hpr]

theorem Inv_deleteItem {V : Type} (t : Table V) (key : String) (hI : Inv t) :
    Inv (deleteItem t key).1 := by
  obtain ⟨hsz, hmem, hnebo, hlink⟩ := hI
  cases hpr : hashyProbe t key false with
  | error e =>
      rw [deleteItem_err t key e hpr]
      exact ⟨hsz, hmem, hnebo, hlink⟩
  | ok p =>
      rw [deleteItem_ok t key p hpr]
      refine ⟨hsz, ?mem, ?nebo, ?link⟩
      · show (t.array.set p Slot.del).length ∈ TABLE_SIZES
        rw [List.length_set]
        exact hmem
      · exact NEBK_set_del t.array p hnebo
      · rcases hlink with ⟨hget, hcnt⟩ | hex
        · refine Or.inl ⟨?l1, ?l2⟩
          · show t.sizes.get? t.sizeIndex = some ((t.array.set p Slot.del).length)
            rw [List.length_set]
            exact hget
          · show 3 * (t.count - 1) ≤ 2 * (((t.array.set p Slot.del).length : Int))
            rw [List.length_set]
            omega
        · exact Or.inr hex

theorem Inv_defaultTable (V : Type) : Inv (defaultTable V) := by
  refine ⟨rfl, ?mem, ?nebo, Or.inl ⟨?link, ?cnt⟩⟩
  · show (List.replicate (TABLE_SIZES.getD 0 0) (Slot.empty : Slot V)).length ∈ TABLE_SIZES
    rw [List.length_replicate]
    decide
  · intro k a b hab hb hempty w hocc
    have harr : (defaultTable V).array
        = List.replicate (TABLE_SIZES.getD 0 0) Slot.empty := rfl
    rw [harr, slotAt_replicate_all] at hocc
    cases hocc
  · show TABLE_SIZES.get? 0
      = some ((List.replicate (TABLE_SIZES.getD 0 0) (Slot.empty : Slot V)).length)
    rw [List.length_replicate]
    rfl
  · show 3 * (0 : Int)
      ≤ 2 * (((List.replicate (TABLE_SIZES.getD 0 0) (Slot.empty : Slot V)).length : Int))
    rw [List.length_replicate]
    norm_num

theorem Inv_setItem {V : Type} (t : Table V) (key : String) (v : V)
    (hI : Inv t) : Inv (setItem t key v).1 :=
  (setItemF_master (stdFuel t) t key v hI).1

theorem Inv_reachable {V : Type} (t : Table V) (hr : Reachable t) : Inv t := by
  induction hr with
  | init => exact Inv_defaultTable V
  | set t0 key v _ ih => exact Inv_setItem t0 key v ih
  | del t0 key _ ih => exact Inv_deleteItem t0 key ih

/-- C5: round trip.  On any table reachable from a fresh default-size
(prime-capacity) table through the public mutating operations, if
`set(key, v)` completes successfully — including when it triggered a
resize — then `get(key)` immediately afterwards returns `v`. -/
theorem C5_round_trip {V : Type} (t : Table V) (key : String) (v : V)
    (t' : Table V) (hr : Reachable t) (hs : setItem t key v = (t', none)) :
    getItem t' key = .ok v := by
  have hI := Inv_reachable t hr
  have hm := setItemF_master (stdFuel t) t key v hI
  have hs2 : setItemF (stdFuel t) t key v = (t', none) := hs
  rw [hs2] at hm
  obtain ⟨hI2, hfv⟩ := hm
  have hf : FindsVal t'.array key v := hfv rfl
  have hm5 : 5 ≤ t'.array.length := TS_five _ hI2.2.1
  exact getItem_of_FindsVal t' key v (by omega) hf

/-- C5 witness: on the freshly constructed default table, `set "a" 1`
succeeds and `get "a"` returns 1. -/
theorem C5_round_trip_witness :
    Reachable (defaultTable Int) ∧
      getItem (setItem (defaultTable Int) "a" 1).1 "a" = .ok 1 :=
  ⟨Reachable.init,
    C5_round_trip (defaultTable Int) "a" 1 (setItem (defaultTable Int) "a" 1).1
      Reachable.init rfl⟩

end HashyStep

namespace HashyStep

/-! ## The load-factor bound after a successful set -/

theorem fold_load {V : Type}
    (ins : Table V → String → V → Table V × Option Err)
    (hins : ∀ (s : Table V) (k : String) (w : V), (ins s k w).2 = none →
      3 * (ins s k w).1.count ≤ 2 * ((ins s k w).1.array.length : Int)) :
    ∀ (l : List (Slot V)) (acc : Table V × Option Err),
      (acc.2 = none → 3 * acc.1.count ≤ 2 * (acc.1.array.length : Int)) →
      (List.foldl (reinsertStep ins) acc l).2 = none →
      3 * (List.foldl (reinsertStep ins) acc l).1.count
        ≤ 2 * ((List.foldl (reinsertStep ins) acc l).1.array.length : Int) := by
  intro l
  induction l with
  | nil => intro acc hacc h; exact hacc h
  | cons s rest ih =>
      intro acc hacc h
      rw [List.foldl_cons] at h ⊢
      refine ih _ ?hstep h
      rcases acc with ⟨T, e⟩
      cases e with
      | some e0 =>
          rw [reinsertStep_err]
          intro hc
          exact absurd hc (by simp)
      | none =>
          cases s with
          | empty => rw [reinsertStep_empty]; exact hacc
          | del => rw [reinsertStep_del]; exact hacc
          | occ k w => rw [reinsertStep_occ]; exact hins T k w

theorem rehash_load {V : Type}
    (ins : Table V → String → V → Table V × Option Err)
    (hins : ∀ (s : Table V) (k : String) (w : V), (ins s k w).2 = none →
      3 * (ins s k w).1.count ≤ 2 * ((ins s k w).1.array.length : Int))
    (t : Table V) (h : (rehashWith ins t).2 = none) :
    3 * (rehashWith ins t).1.count
      ≤ 2 * ((rehashWith ins t).1.array.length : Int) := by
  by_cases hex : t.sizes.length ≤ t.sizeIndex + 1
  · rw [rehashWith_exhausted ins t hex] at h
    exact absurd h (by simp)
  · rw [rehashWith_go ins t hex] at h ⊢
    refine fold_load ins hins t.array _ ?hacc h
    intro _
    show 3 * (0 : Int)
      ≤ 2 * (((List.replicate (t.sizes.getD (t.sizeIndex + 1) 0) (Slot.empty : Slot V)).length : Int))
    have := Int.natCast_nonneg
      ((List.replicate (t.sizes.getD (t.sizeIndex + 1) 0) (Slot.empty : Slot V)).length)
    omega

theorem setItemF_load {V : Type} :
    ∀ (fuel : Nat) (t : Table V) (key : String) (v : V),
      (setItemF fuel t key v).2 = none →
      3 * (setItemF fuel t key v).1.count
        ≤ 2 * ((setItemF fuel t key v).1.array.length : Int) := by
  intro fuel
  induction fuel with
  | zero =>
      intro t key v h
      rw [setItemF_zero] at h
      exact absurd h (by simp)
  | succ g ih =>
      intro t key v h
      cases hpr : hashyProbe t key true with
      | error e =>
          rw [setItemF_probe_err g t key v e hpr] at h
          exact absurd h (by simp)
      | ok p =>
          cases hsl : slotAt t.array p with
          | empty =>
              by_cases hth : 3 * (t.count + 1) > 2 * (t.array.length : Int)
              · rw [setItemF_ok_empty_rehash g t key v p hpr hsl hth] at h ⊢
                exact rehash_load (setItemF g) (fun s k w => ih s k w) _ h
              · rw [setItemF_ok_empty g t key v p hpr hsl hth]
                show 3 * (t.count + 1) ≤ 2 * (((t.array.set p (Slot.occ key v)).length : Int))
                rw [List.length_set]
                omega
          | del =>
              by_cases hth : 3 * t.count > 2 * (t.array.length : Int)
              · rw [setItemF_ok_nonempty_rehash g t key v p hpr
                  (by rw [hsl]; exact fun hc => nomatch hc) hth] at h ⊢
                exact rehash_load (setItemF g) (fun s k w => ih s k w) _ h
              · rw [setItemF_ok_del g t key v p hpr hsl hth]
                show 3 * t.count ≤ 2 * (((t.array.set p (Slot.occ key v)).length : Int))
                rw [List.length_set]
                omega
          | occ k0 w0 =>
              by_cases hth : 3 * t.count > 2 * (t.array.length : Int)
              · rw [setItemF_ok_nonempty_rehash g t key v p hpr
                  (by rw [hsl]; exact fun hc => nomatch hc) hth] at h ⊢
                exact rehash_load (setItemF g) (fun s k w => ih s k w) _ h
              · rw [setItemF_ok_occ g t key v p k0 w0 hpr hsl hth]
                show 3 * t.count ≤ 2 * (((t.array.set p (Slot.occ key v)).length : Int))
                rw [List.length_set]
                omega

/-- C6: load-factor invariant.  Immediately after any successful `set`
(including any resize it triggers, on any table state and any size list),
`len() ≤ capacity * 2/3`, i.e. `3 * count ≤ 2 * capacity` — because the
resize is triggered eagerly exactly when `count > capacity * 2/3`. -/
theorem C6_load_factor {V : Type} (t : Table V) (key : String) (v : V)
    (t' : Table V) (hs : setItem t key v = (t', none)) :
    3 * t'.count ≤ 2 * (t'.array.length : Int) := by
  have h2 := setItemF_load (stdFuel t) t key v
  have hs2 : setItemF (stdFuel t) t key v = (t', none) := hs
  rw [hs2] at h2
  exact h2 rfl

/-- C6 witness: a concrete successful set on the fresh default table. -/
theorem C6_load_factor_witness :
    3 * (setItem (defaultTable Int) "a" 1).1.count
      ≤ 2 * (((setItem (defaultTable Int) "a" 1).1.array.length : Int)) :=
  C6_load_factor (defaultTable Int) "a" 1 (setItem (defaultTable Int) "a" 1).1
    rfl

end HashyStep

namespace HashyStep

/-- C8: for every key and every capacity `m ≥ 2`, the probe step is the
secondary polynomial accumulation modulo `m - 1`, plus one; hence it lies
in `[1, m-1]`, is never zero, and every probe advances the position. -/
theorem C8_step_bounds {V : Type} (t : Table V) (key : String)
    (hm : 2 ≤ t.tableSize) :
    hash2Key t.tableSize key
        = key.data.foldl (fun a c => (a * 31 + c.toNat) % (t.tableSize - 1)) 0
            + 1 ∧
      1 ≤ hash2Key t.tableSize key ∧
      hash2Key t.tableSize key ≤ t.tableSize - 1 ∧
      ∀ pos, pos < t.tableSize →
        (pos + hash2Key t.tableSize key) % t.tableSize ≠ pos := by
  refine ⟨rfl, hash2Key_pos _ _, hash2Key_le _ _ hm, ?adv⟩
  intro pos hpos heq
  have hs1 := hash2Key_pos t.tableSize key
  have hs2 := hash2Key_le t.tableSize key hm
  have hmod : pos % t.tableSize = (pos + hash2Key t.tableSize key) % t.tableSize := by
    rw [heq, Nat.mod_eq_of_lt hpos]
  have hdvd : t.tableSize ∣ hash2Key t.tableSize key := by
    have h2 := (Nat.modEq_iff_dvd' (Nat.le_add_right pos _)).mp hmod
    simpa using h2
  have := Nat.le_of_dvd (by omega) hdvd
  omega

/-- C8 witness: the default table (capacity 5) and the key `"a"`. -/
theorem C8_step_bounds_witness :
    2 ≤ (defaultTable Int).tableSize ∧
      (hash2Key (defaultTable Int).tableSize "a"
          = "a".data.foldl
              (fun a c => (a * 31 + c.toNat) % ((defaultTable Int).tableSize - 1)) 0
              + 1 ∧
        1 ≤ hash2Key (defaultTable Int).tableSize "a" ∧
        hash2Key (defaultTable Int).tableSize "a" ≤ (defaultTable Int).tableSize - 1 ∧
        ∀ pos, pos < (defaultTable Int).tableSize →
          (pos + hash2Key (defaultTable Int).tableSize "a") % (defaultTable Int).tableSize
            ≠ pos) :=
  ⟨by decide, C8_step_bounds (defaultTable Int) "a" (by decide)⟩

end HashyStep

namespace HashyStep

/-- C10: on a fresh table, `set k v1; delete k; set k v2; delete k` yields
`len() = -1` and `is_empty() = false`, because the re-insertion over the
tombstone does not increment `count` while the second delete still
decrements it. -/
theorem C10_negative_len {V : Type} (k : String) (v1 v2 : V) :
    (deleteItem (setItem (deleteItem (setItem (defaultTable V) k v1).1 k).1
        k v2).1 k).1.count = -1 ∧
      isEmptyT (deleteItem (setItem (deleteItem (setItem (defaultTable V) k
        v1).1 k).1 k v2).1 k).1 = false := by
  have hlen0 : (defaultTable V).array.length = 5 := rfl
  have hcnt0 : (defaultTable V).count = 0 := rfl
  have hm0 : 0 < (defaultTable V).array.length := by rw [hlen0]; norm_num
  have harr0 : (defaultTable V).array
      = List.replicate (TABLE_SIZES.getD 0 0) Slot.empty := rfl
  have hp5 : probePos (defaultTable V).array k 0 < 5 := by
    rw [← hlen0]
    exact probePos_lt _ _ _ hm0
  have hsl0 : slotAt (defaultTable V).array
      (probePos (defaultTable V).array k 0) = Slot.empty := by
    rw [harr0]
    exact slotAt_replicate_all _ _
  have hpr1 : hashyProbe (defaultTable V) k true
      = .ok (probePos (defaultTable V).array k 0) :=
    hashyProbe_ok_of _ k true 0 hm0 (fun j hj => absurd hj (Nat.not_lt_zero j))
      (by rw [hsl0]; rfl) (fun _ => rfl)
  have hth1 : ¬(3 * ((defaultTable V).count + 1)
      > 2 * (((defaultTable V).array.length : Int))) := by
    rw [hcnt0, hlen0]
    norm_num
  obtain ⟨T1, h1, h1a, h1c, h1s⟩ :
      ∃ T1, setItem (defaultTable V) k v1 = (T1, none) ∧
        T1.array = (defaultTable V).array.set
          (probePos (defaultTable V).array k 0) (Slot.occ k v1) ∧
        T1.count = (defaultTable V).count + 1 ∧
        T1.sizes = TABLE_SIZES :=
    ⟨_, setItemF_ok_empty 20 (defaultTable V) k v1 _ hpr1 hsl0 hth1, rfl, rfl, rfl⟩
  have hlen1 : T1.array.length = 5 := by
    rw [h1a, List.length_set]
    exact hlen0
  have hpp1 : probePos T1.array k 0 = probePos (defaultTable V).array k 0 := by
    rw [h1a]
    exact probePos_set _ _ _ _ _
  have hsl1 : slotAt T1.array (probePos T1.array k 0) = Slot.occ k v1 := by
    rw [hpp1, h1a]
    exact slotAt_set_self _ _ _ (by rw [hlen0]; exact hp5)
  have hpr2 : hashyProbe T1 k false = .ok (probePos T1.array k 0) :=
    hashyProbe_ok_of T1 k false 0 (by rw [hlen1]; norm_num)
      (fun j hj => absurd hj (Nat.not_lt_zero j))
      (by rw [hsl1]; simp [stepsOver])
      (by intro hc; rw [hsl1] at hc; cases hc)
  obtain ⟨T2, h2, h2a, h2c, h2s⟩ :
      ∃ T2, deleteItem T1 k = (T2, none) ∧
        T2.array = T1.array.set (probePos T1.array k 0) Slot.del ∧
        T2.count = T1.count - 1 ∧
        T2.sizes = T1.sizes :=
    ⟨_, deleteItem_ok T1 k _ hpr2, rfl, rfl, rfl⟩
  have hlen2 : T2.array.length = 5 := by
    rw [h2a, List.length_set]
    exact hlen1
  have hcnt2 : T2.count = 0 := by
    rw [h2c, h1c, hcnt0]
    norm_num
  have hpp2 : probePos T2.array k 0 = probePos (defaultTable V).array k 0 := by
    rw [h2a, probePos_set]
    exact hpp1
  have hsl2 : slotAt T2.array (probePos T2.array k 0) = Slot.del := by
    rw [hpp2, h2a, hpp1]
    exact slotAt_set_self _ _ _ (by rw [hlen1]; exact hp5)
  have hpr3 : hashyProbe T2 k true = .ok (probePos T2.array k 0) :=
    hashyProbe_ok_of T2 k true 0 (by rw [hlen2]; norm_num)
      (fun j hj => absurd hj (Nat.not_lt_zero j))
      (by rw [hsl2]; rfl) (fun _ => rfl)
  have hth3 : ¬(3 * T2.count > 2 * ((T2.array.length : Int))) := by
    rw [hcnt2, hlen2]
    norm_num
  have hset3 : setItem T2 k v2 = setItemF (20 + 1) T2 k v2 := by
    show setItemF (stdFuel T2) T2 k v2 = setItemF (20 + 1) T2 k v2
    have hfuel : stdFuel T2 = 20 + 1 := by
      show T2.sizes.length + 2 = 20 + 1
      rw [h2s, h1s]
      rfl
    rw [hfuel]
  obtain ⟨T3, h3, h3a, h3c, h3s⟩ :
      ∃ T3, setItem T2 k v2 = (T3, none) ∧
        T3.array = T2.array.set (probePos T2.array k 0) (Slot.occ k v2) ∧
        T3.count = T2.count ∧
        T3.sizes = T2.sizes := by
    rw [hset3]
    exact ⟨_, setItemF_ok_del 20 T2 k v2 _ hpr3 hsl2 hth3, rfl, rfl, rfl⟩
  have hlen3 : T3.array.length = 5 := by
    rw [h3a, List.length_set]
    exact hlen2
  have hpp3 : probePos T3.array k 0 = probePos (defaultTable V).array k 0 := by
    rw [h3a, probePos_set]
    exact hpp2
  have hsl3 : slotAt T3.array (probePos T3.array k 0) = Slot.occ k v2 := by
    rw [hpp3, h3a, hpp2]
    exact slotAt_set_self _ _ _ (by rw [hlen2]; exact hp5)
  have hpr4 : hashyProbe T3 k false = .ok (probePos T3.array k 0) :=
    hashyProbe_ok_of T3 k false 0 (by rw [hlen3]; norm_num)
      (fun j hj => absurd hj (Nat.not_lt_zero j))
      (by rw [hsl3]; simp [stepsOver])
      (by intro hc; rw [hsl3] at hc; cases hc)
  obtain ⟨T4, h4, h4a, h4c, h4s⟩ :
      ∃ T4, deleteItem T3 k = (T4, none) ∧
        T4.array = T3.array.set (probePos T3.array k 0) Slot.del ∧
        T4.count = T3.count - 1 ∧
        T4.sizes = T3.sizes :=
    ⟨_, deleteItem_ok T3 k _ hpr4, rfl, rfl, rfl⟩
  have hcnt4 : T4.count = -1 := by
    rw [h4c, h3c, hcnt2]
    norm_num
  have h1f : (setItem (defaultTable V) k v1).1 = T1 := by rw [h1]
  have h2f : (deleteItem (setItem (defaultTable V) k v1).1 k).1 = T2 := by
    rw [h1f, h2]
  have h3f : (setItem (deleteItem (setItem (defaultTable V) k v1).1 k).1 k v2).1
      = T3 := by
    rw [h2f, h3]
  have h4f : (deleteItem (setItem (deleteItem (setItem (defaultTable V) k
      v1).1 k).1 k v2).1 k).1 = T4 := by
    rw [h3f, h4]
  rw [h4f]
  refine ⟨hcnt4, ?emp⟩
  show (T4.count == 0) = false
  rw [hcnt4]
  rfl

end HashyStep

namespace HashyStep

/-- C7 amended: an empty key is not rejected.  Both hash loops run zero
times, so `""` hashes to position 0 with step 1 and is processed as an
ordinary key: on a fresh table, `set "" v` completes without raising and
`get ""` returns `v`. -/
theorem C7_amended {V : Type} (m : Nat) (v : V) :
    hashKey m "" = 0 ∧ hash2Key m "" = 1 ∧
      (setItem (defaultTable V) "" v).2 = none ∧
      getItem (setItem (defaultTable V) "" v).1 "" = .ok v := by
  have hlen0 : (defaultTable V).array.length = 5 := rfl
  have hcnt0 : (defaultTable V).count = 0 := rfl
  have hm0 : 0 < (defaultTable V).array.length := by rw [hlen0]; norm_num
  have harr0 : (defaultTable V).array
      = List.replicate (TABLE_SIZES.getD 0 0) Slot.empty := rfl
  have hsl0 : slotAt (defaultTable V).array
      (probePos (defaultTable V).array "" 0) = Slot.empty := by
    rw [harr0]
    exact slotAt_replicate_all _ _
  have hpr1 : hashyProbe (defaultTable V) "" true
      = .ok (probePos (defaultTable V).array "" 0) :=
    hashyProbe_ok_of _ "" true 0 hm0 (fun j hj => absurd hj (Nat.not_lt_zero j))
      (by rw [hsl0]; rfl) (fun _ => rfl)
  have hth1 : ¬(3 * ((defaultTable V).count + 1)
      > 2 * (((defaultTable V).array.length : Int))) := by
    rw [hcnt0, hlen0]
    norm_num
  have h1 : setItem (defaultTable V) "" v
      = ({ defaultTable V with
            array := (defaultTable V).array.set
              (probePos (defaultTable V).array "" 0) (Slot.occ "" v),
            count := (defaultTable V).count + 1 }, none) :=
    setItemF_ok_empty 20 (defaultTable V) "" v _ hpr1 hsl0 hth1
  refine ⟨rfl, rfl, by rw [h1], ?get⟩
  have hI := Inv_defaultTable V
  have hmm := setItemF_master (stdFuel (defaultTable V)) (defaultTable V) "" v hI
  have hs2 : setItemF (stdFuel (defaultTable V)) (defaultTable V) "" v
      = ((setItem (defaultTable V) "" v).1, none) := by
    rw [show setItemF (stdFuel (defaultTable V)) (defaultTable V) "" v
      = setItem (defaultTable V) "" v from rfl, h1]
  rw [hs2] at hmm
  have hm5 := TS_five _ hmm.1.2.1
  exact getItem_of_FindsVal _ "" v
    (Nat.lt_of_lt_of_le (by norm_num : 0 < 5) hm5) (hmm.2 rfl)

/-- C4 amended: when a `set` resolves to an Empty slot, crosses the load
factor and the size list is exhausted, the operation raises `FullError`
but retains its partial mutation: the written entry and the incremented
`count` remain observable and `size_index` is advanced, while the backing
storage itself is not swapped (no partially migrated array). -/
theorem C4_amended {V : Type} (t : Table V) (key : String) (v : V) (p : Nat)
    (hpr : hashyProbe t key true = .ok p)
    (hsl : slotAt t.array p = Slot.empty)
    (hth : 3 * (t.count + 1) > 2 * (t.array.length : Int))
    (hex : t.sizes.length ≤ t.sizeIndex + 1) :
    setItem t key v
      = ({ t with
            sizeIndex := t.sizeIndex + 1,
            array := t.array.set p (Slot.occ key v),
            count := t.count + 1 }, some .full) := by
  show setItemF (stdFuel t) t key v = _
  have hg : stdFuel t = (t.sizes.length + 1) + 1 := rfl
  rw [hg, setItemF_ok_empty_rehash (t.sizes.length + 1) t key v p hpr hsl hth]
  rw [rehashWith_exhausted (setItemF (t.sizes.length + 1))]
  show t.sizes.length ≤ t.sizeIndex + 1
  exact hex

/-- C4 amended, witness: with `sizes = [5]` and three entries present, the
fourth insert resolves to the Empty slot 0, crosses the load factor, finds
no larger size, raises `FullError` — and the post state retains the new
entry, the incremented count and the advanced size index. -/
theorem C4_amended_witness :
    hashyProbe (setItem (setItem (setItem (initTable Int [5]) "a" 1).1 "b" 2).1
        "c" 3).1 "d" true = .ok 0 ∧
      slotAt (setItem (setItem (setItem (initTable Int [5]) "a" 1).1 "b" 2).1
        "c" 3).1.array 0 = Slot.empty ∧
      3 * ((setItem (setItem (setItem (initTable Int [5]) "a" 1).1 "b" 2).1
        "c" 3).1.count + 1)
        > 2 * (((setItem (setItem (setItem (initTable Int [5]) "a" 1).1 "b" 2).1
        "c" 3).1.array.length : Int)) ∧
      (setItem (setItem (setItem (initTable Int [5]) "a" 1).1 "b" 2).1
        "c" 3).1.sizes.length
        ≤ (setItem (setItem (setItem (initTable Int [5]) "a" 1).1 "b" 2).1
        "c" 3).1.sizeIndex + 1 ∧
      setItem (setItem (setItem (setItem (initTable Int [5]) "a" 1).1 "b" 2).1
        "c" 3).1 "d" 4
        = ({ (setItem (setItem (setItem (initTable Int [5]) "a" 1).1 "b" 2).1
              "c" 3).1 with
              sizeIndex := (setItem (setItem (setItem (initTable Int [5]) "a"
                1).1 "b" 2).1 "c" 3).1.sizeIndex + 1,
              array := (setItem (setItem (setItem (initTable Int [5]) "a" 1).1
                "b" 2).1 "c" 3).1.array.set 0 (Slot.occ "d" 4),
              count := (setItem (setItem (setItem (initTable Int [5]) "a" 1).1
                "b" 2).1 "c" 3).1.count + 1 }, some .full) :=
  ⟨rfl, rfl, by decide, by decide,
    C4_amended (setItem (setItem (setItem (initTable Int [5]) "a" 1).1 "b"
      2).1 "c" 3).1 "d" 4 0 rfl rfl (by decide) (by decide)⟩

end HashyStep
